import Mathlib

/-
Verification of the session-store / resilient-client core.

The Python sources are shallowly embedded as executable Lean functions:

* `InMemorySessionStore` (stores/memory_store.py) becomes `memRead`, `memSet`,
  `memDelete`, `memKeys`, `memCopySession` over an association list that models
  the Python dict `self._data : {(session_id, key): (value, expires_at|None)}`.
  `time.monotonic()` is modelled by an explicit `now : Nat` argument; each
  public operation of the store happens at one instant.
* `RedisSessionStore` (stores/redis_store.py) becomes `redisCopySession` and
  friends over a flat keyspace of character-list keys, mirroring the
  `"mcp:session:{sid}:{key}"` string addressing of the source; Redis native
  per-key expiry is modelled by an expiry field consulted at `now`.
* `Session` (session_store.py) becomes `sessionGet` / `sessionSet`; the
  `json` stdlib calls are modelled by an executable JSON printer/parser
  (`json_dumps` / `json_loads`, integers only for numbers); a Python
  exception from `json.loads` is modelled as `Except.error`.
* `resume_session` (server.py) becomes `resumeSessionTool`, returning the
  result dict as an association list of JSON fields.
* `ResilientClient` (resilient_client.py) becomes `runWrapper`: the retry
  loop is structural recursion on the remaining attempt budget, with the
  outcome of each external step (the intercepted call, connect, teardown,
  the remote resume) supplied by an environment `WEnv`, and the order of
  side effects recorded in an event trace.
-/

/-! ### Association-list primitives (model of a Python dict / flat keyspace) -/
variable {K : Type} {B : Type} [BEq K] [LawfulBEq K]

/-- Dict lookup: first entry whose key matches. -/
def lookupA (l : List (K × B)) (a : K) : Option B :=
  (l.find? (fun p => p.1 == a)).map (fun p => p.2)

/-- Dict upsert: replace in place if the key is present, else append. -/
def setA (l : List (K × B)) (a : K) (b : B) : List (K × B) :=
  if l.any (fun p => p.1 == a) then
    l.map (fun p => if p.1 == a then (a, b) else p)
  else
    l ++ [(a, b)]

/-- Dict deletion (`pop` / `del`): drop the entries whose key matches. -/
def delA (l : List (K × B)) (a : K) : List (K × B) :=
  l.filter (fun p => !(p.1 == a))

/-- Dict-representable states have no duplicate keys. -/
def nodupKeys (l : List (K × B)) : Prop := (l.map (fun p => p.1)).Nodup

/-! ### In-memory store (stores/memory_store.py) -/
/-- Storage address: `(session_id, key)`. -/
abbrev Addr := String × String

/-- Stored entry: `(value, expires_at | None)`. -/
abbrev Entry := String × Option Nat

/-- The dict `self._data` of `InMemorySessionStore`. -/
abbrev MemState := List (Addr × Entry)

/-- `InMemorySessionStore._is_alive`: alive iff no expiry or expiry in the future. -/
def isAlive (now : Nat) (e : Entry) : Bool :=
  match e.2 with
  | none => true
  | some expires => decide (now < expires)

/-- `InMemorySessionStore._read` (also `get`): return the live value; a dead
entry is lazily deleted and reads as absent. -/
def memRead (now : Nat) (d : MemState) (sid key : String) :
    MemState × Option String :=
  match lookupA d (sid, key) with
  | none => (d, none)
  | some e =>
    if isAlive now e then (d, some e.1)
    else (delA d (sid, key), none)

/-- `InMemorySessionStore.set`: upsert with expiry `now + ttl` (or none). -/
def memSet (now : Nat) (d : MemState) (sid key value : String)
    (ttl : Option Nat) : MemState :=
  setA d (sid, key) (value, ttl.map (fun t => now + t))

/-- `InMemorySessionStore.delete`. -/
def memDelete (d : MemState) (sid key : String) : MemState :=
  delA d (sid, key)

/-- `InMemorySessionStore.keys`: live keys of the session, in insertion order;
side effect: the session's dead entries are removed. -/
def memKeys (now : Nat) (d : MemState) (sid : String) :
    MemState × List String :=
  (d.filter (fun p => !(p.1.1 == sid && !isAlive now p.2)),
   (d.filter (fun p => p.1.1 == sid && isAlive now p.2)).map (fun p => p.1.2))

/-- The body of the `for k in src_keys` loop of
`InMemorySessionStore.copy_session`: re-read the key from the (current)
store and, if a value is live, write it under the destination with the
precomputed expiry and count it. -/
def copyStep (now : Nat) (src dst : String) (expires : Option Nat)
    (acc : MemState × Nat) (k : String) : MemState × Nat :=
  let rd := memRead now acc.1 src k
  match rd.2 with
  | none => (rd.1, acc.2)
  | some v => (setA rd.1 (dst, k) (v, expires), acc.2 + 1)

/-- `InMemorySessionStore.copy_session`: enumerate the live source keys, then
re-read each one and write it under the destination with the fresh expiry
`now + ttl` computed once at the start of the copy. -/
def memCopySession (now : Nat) (d : MemState) (src dst : String)
    (ttl : Option Nat) : MemState × Nat :=
  let r := memKeys now d src
  let expires := ttl.map (fun t => now + t)
  r.2.foldl (copyStep now src dst expires) (r.1, 0)

/-! ### JSON model (the `json` stdlib as used by session_store.py)

`json.dumps` / `json.loads` are modelled by an executable printer and
recursive-descent parser over the standard JSON grammar (numbers restricted
to integers; string escapes restricted to the ones the parser emits; no
claim touches floats or exotic escapes).  A `json.loads` failure (Python
`JSONDecodeError`) is modelled as the parser returning `none`. -/
inductive Json where
  | null
  | bool (b : Bool)
  | num (n : Int)
  | str (s : String)
  | arr (elems : List Json)
  | obj (fields : List (String × Json))
deriving BEq

mutual

/-- `json.dumps` (Python default separators). -/
def json_dumps : Json → String
  | .null => "null"
  | .bool true => "true"
  | .bool false => "false"
  | .num n => toString n
  | .str s => "\"" ++ s ++ "\""
  | .arr l => "[" ++ json_dumpsList l ++ "]"
  | .obj fs => "\x7b" ++ json_dumpsFields fs ++ "\x7d"

def json_dumpsList : List Json → String
  | [] => ""
  | [x] => json_dumps x
  | x :: xs => json_dumps x ++ ", " ++ json_dumpsList xs

def json_dumpsFields : List (String × Json) → String
  | [] => ""
  | [(k, v)] => "\"" ++ k ++ "\": " ++ json_dumps v
  | (k, v) :: xs => "\"" ++ k ++ "\": " ++ json_dumps v ++ ", " ++ json_dumpsFields xs

end

/-- Skip JSON whitespace. -/
def skipWs : List Char → List Char
  | c :: cs => if c = ' ' || c = '\t' || c = '\n' || c = '\r' then skipWs cs else c :: cs
  | [] => []

/-- Match a literal token, returning the rest of the input. -/
def parseLit (lit : List Char) (cs : List Char) : Option (List Char) :=
  if lit.isPrefixOf cs then some (cs.drop lit.length) else none

/-- Parse a run of decimal digits (at least one). -/
def parseDigits : List Char → Nat → Option (Nat × List Char)
  | c :: cs, acc =>
    if c.isDigit then
      match parseDigits cs (acc * 10 + (c.toNat - '0'.toNat)) with
      | some r => some r
      | none => some (acc * 10 + (c.toNat - '0'.toNat), cs)
    else none
  | [], _ => none

/-- Parse an integer JSON number (optional leading minus). -/
def parseNum : List Char → Option (Int × List Char)
  | '-' :: cs =>
    match cs with
    | c :: _ =>
      if c.isDigit then
        match parseDigits cs 0 with
        | some (n, rest) => some (-(Int.ofNat n), rest)
        | none => none
      else none
    | [] => none
  | c :: cs =>
    if c.isDigit then
      match parseDigits (c :: cs) 0 with
      | some (n, rest) => some (Int.ofNat n, rest)
      | none => none
    else none
  | [] => none

/-- Parse the body of a JSON string literal (after the opening quote),
understanding the escapes `\"` and `\\`. -/
def parseStrBody : List Char → Option (List Char × List Char)
  | '"' :: cs => some ([], cs)
  | '\\' :: e :: cs =>
    if e = '"' || e = '\\' then
      match parseStrBody cs with
      | some (s, rest) => some (e :: s, rest)
      | none => none
    else none
  | c :: cs =>
    match parseStrBody cs with
    | some (s, rest) => some (c :: s, rest)
    | none => none
  | [] => none

mutual

/-- Parse one JSON value. -/
def parseValue : Nat → List Char → Option (Json × List Char)
  | 0, _ => none
  | fuel + 1, cs =>
    match skipWs cs with
    | [] => none
    | c :: rest =>
      if c = 'n' then
        match parseLit ['u', 'l', 'l'] rest with
        | some r => some (.null, r)
        | none => none
      else if c = 't' then
        match parseLit ['r', 'u', 'e'] rest with
        | some r => some (.bool true, r)
        | none => none
      else if c = 'f' then
        match parseLit ['a', 'l', 's', 'e'] rest with
        | some r => some (.bool false, r)
        | none => none
      else if c = '"' then
        match parseStrBody rest with
        | some (s, r) => some (.str (String.mk s), r)
        | none => none
      else if c = '[' then
        match skipWs rest with
        | ']' :: r => some (.arr [], r)
        | r =>
          match parseValue fuel r with
          | some (v, r2) =>
            match parseElems fuel r2 with
            | some (vs, r3) => some (.arr (v :: vs), r3)
            | none => none
          | none => none
      else if c = '\x7b' then
        match skipWs rest with
        | '\x7d' :: r => some (.obj [], r)
        | r =>
          match parseField fuel r with
          | some (kv, r2) =>
            match parseFields fuel r2 with
            | some (kvs, r3) => some (.obj (kv :: kvs), r3)
            | none => none
          | none => none
      else
        match parseNum (c :: rest) with
        | some (n, r) => some (.num n, r)
        | none => none

/-- Parse the remaining elements of an array (`, v`* then `]`). -/
def parseElems : Nat → List Char → Option (List Json × List Char)
  | 0, _ => none
  | fuel + 1, cs =>
    match skipWs cs with
    | ']' :: r => some ([], r)
    | ',' :: r =>
      match parseValue fuel r with
      | some (v, r2) =>
        match parseElems fuel r2 with
        | some (vs, r3) => some (v :: vs, r3)
        | none => none
      | none => none
    | _ => none

/-- Parse one `"key": value` field of an object. -/
def parseField : Nat → List Char → Option ((String × Json) × List Char)
  | 0, _ => none
  | fuel + 1, cs =>
    match skipWs cs with
    | '"' :: r =>
      match parseStrBody r with
      | some (k, r2) =>
        match skipWs r2 with
        | ':' :: r3 =>
          match parseValue fuel r3 with
          | some (v, r4) => some ((String.mk k, v), r4)
          | none => none
        | _ => none
      | none => none
    | _ => none

/-- Parse the remaining fields of an object (`, field`* then the brace). -/
def parseFields : Nat → List Char → Option (List (String × Json) × List Char)
  | 0, _ => none
  | fuel + 1, cs =>
    match skipWs cs with
    | '\x7d' :: r => some ([], r)
    | ',' :: r =>
      match parseField fuel r with
      | some (kv, r2) =>
        match parseFields fuel r2 with
        | some (kvs, r3) => some (kv :: kvs, r3)
        | none => none
      | none => none
    | _ => none

end

/-- `json.loads`: parse one value and require only trailing whitespace;
`none` models a raised `json.JSONDecodeError`. -/
def json_loads (s : String) : Option Json :=
  match parseValue (s.length + 1) s.data with
  | some (v, rest) => if skipWs rest = [] then some v else none
  | none => none

/-! ### Session facade (session_store.py) and the resume tool (server.py) -/
/-- `Session.get`: read the raw string and `json.loads` it.  Python returns
`None` both for a missing key and for a stored JSON `null` (they are the
same object), modelled as `.ok .null`; a parse failure propagates as a
raised exception, modelled as `.error ()` — the source has no try/except
around `json.loads`. -/
def sessionGet (now : Nat) (d : MemState) (sid key : String) :
    MemState × Except Unit Json :=
  let rd := memRead now d sid key
  match rd.2 with
  | none => (rd.1, .ok .null)
  | some raw =>
    match json_loads raw with
    | some v => (rd.1, .ok v)
    | none => (rd.1, .error ())

/-- `Session.set`: `json.dumps` the value and store it with the session's
default ttl (always passed: `ttl=self._ttl`). -/
def sessionSet (now : Nat) (d : MemState) (sid key : String) (value : Json)
    (ttl : Nat) : MemState :=
  memSet now d sid key (json_dumps value) (some ttl)

/-- `SESSION_TTL` of server.py. -/
def SESSION_TTL : Nat := 1800

/-- The `resume_session` tool of server.py over the in-memory store: same
session id is a no-op with a `same_session` status; otherwise
`Session.copy_from` = `copy_session(old, new, ttl=SESSION_TTL)` and a
`resumed` status carrying `keys_copied`.  The returned dict is modelled as
an association list of JSON fields, in construction order. -/
def resumeSessionTool (now : Nat) (d : MemState) (instanceId : String)
    (newSid oldSid : String) : MemState × List (String × Json) :=
  if oldSid = newSid then
    (d, [("status", .str "same_session"), ("instance", .str instanceId)])
  else
    let r := memCopySession now d oldSid newSid (some SESSION_TTL)
    (r.1, [("status", .str "resumed"), ("keys_copied", .num (Int.ofNat r.2)),
           ("instance", .str instanceId)])

/-! ### Resilient call wrapper (resilient_client.py)

The wrapper intercepts one call.  The outcome of each external step — the
intercepted call at a given attempt, the connect handshake, teardown, and
the internally issued `resume_session` tool call — is supplied by an
environment; errors are abstract strings.  The order of externally visible
steps is recorded in an event trace. -/
/-- Externally visible steps of one intercepted call, in order. -/
inductive Ev where
  | call (attempt : Nat)
  | sleep (seconds : Nat)
  | teardown
  | connect (ok : Bool)
  | resume (oldSid : String)
deriving DecidableEq, Repr

/-- Outcomes of the external steps: `call i` is the result of the intercepted
call at attempt `i`, `conn i` the result of the connect handshake in the
reconnect cycle after attempt `i` (its `ok` carries the new session id),
`teardownFails i` whether `__aexit__` raises there, and `resume i` the
result of the internally issued `resume_session` call (its `ok` carries the
keys-copied count). -/
structure WEnv where
  call : Nat → Except String Nat
  conn : Nat → Except String String
  teardownFails : Nat → Bool
  resume : Nat → Except String Nat

/-- `ResilientClient._reconnect_and_resume`: record the old session id,
best-effort teardown (`try/except: pass`), reconnect, then — if an old
session id exists — call the `resume_session` tool, swallowing its errors
(`try/except: print`).  A connect error propagates.  Returns the new
session id. -/
def reconnectAndResume (env : WEnv) (i : Nat) (sid : Option String) :
    Except String (Option String) × List Ev :=
  let tdEvs : List Ev := [Ev.teardown]
  match env.conn i with
  | .error ce => (.error ce, tdEvs ++ [Ev.connect false])
  | .ok newSid =>
    match sid with
    | none => (.ok (some newSid), tdEvs ++ [Ev.connect true])
    | some old =>
      match env.resume i with
      | .ok _ => (.ok (some newSid), tdEvs ++ [Ev.connect true, Ev.resume old])
      | .error _ => (.ok (some newSid), tdEvs ++ [Ev.connect true, Ev.resume old])

/-- The retry loop of `ResilientClient.__getattr__`'s `wrapper`, by structural
recursion on the remaining attempts (`remaining = max_retries - attempt`).
On failure with attempts left it sleeps `attempt + 1` seconds and then
reconnects/resumes before retrying; on the last attempt it re-raises.  An
exhausted `range` (max_retries = 0) falls through returning Python `None`,
modelled as `.ok none`. -/
def wrapperGo (env : WEnv) : Nat → Nat → Option String →
    Except String (Option Nat) × List Ev
  | _, 0, _ => (.ok none, [])
  | attempt, r + 1, sid =>
    match env.call attempt with
    | .ok v => (.ok (some v), [Ev.call attempt])
    | .error e =>
      if r = 0 then (.error e, [Ev.call attempt])
      else
        match reconnectAndResume env attempt sid with
        | (.error ce, revs) =>
          (.error ce, Ev.call attempt :: Ev.sleep (attempt + 1) :: revs)
        | (.ok sid2, revs) =>
          let next := wrapperGo env (attempt + 1) r sid2
          (next.1, Ev.call attempt :: Ev.sleep (attempt + 1) :: revs ++ next.2)

/-- One intercepted call through the wrapper, starting from the session id
recorded at connect time. -/
def runWrapper (env : WEnv) (maxRetries : Nat) (sid : Option String) :
    Except String (Option Nat) × List Ev :=
  wrapperGo env 0 maxRetries sid

/-- Is an event an attempt of the intercepted call? -/
def isCall : Ev → Bool
  | .call _ => true
  | _ => false

/-- Number of attempts of the intercepted call recorded in a trace. -/
def countCalls (evs : List Ev) : Nat :=
  evs.countP isCall

/-- Concrete run for C7: first attempt fails, reconnect succeeds, retry
succeeds. -/
def c7Env : WEnv where
  call := fun i => if i = 0 then .error "boom" else .ok 42
  conn := fun _ => .ok "s1"
  teardownFails := fun _ => false
  resume := fun _ => .ok 3

/-- Concrete run for C8: every attempt fails with its own error. -/
def c8Env : WEnv where
  call := fun i => .error ("e" ++ toString i)
  conn := fun _ => .ok "s1"
  teardownFails := fun _ => false
  resume := fun _ => .ok 0

/-- Concrete state for the C5 witness: one live entry under `B`, one dead
entry under `A` (so `A` has zero live keys at time 5). -/
def c5D : MemState := [(("B", "x"), ("v", none)), (("A", "y"), ("w", some 1))]

/-! ### C4: isolation between distinct sessions (in-memory store) -/
/-- Store operations of the claim (everything but `copy_session`). -/
inductive SOp where
  | get (key : String)
  | set (key : String) (value : String) (ttl : Option Nat)
  | del (key : String)
  | keys
deriving DecidableEq

/-- Observable result of one operation. -/
inductive Obs where
  | val (v : Option String)
  | keyList (ks : List String)
  | done
deriving DecidableEq

/-- A timed operation: (session id, operation, time of the call). -/
abbrev TOp := String × SOp × Nat

/-- Dispatch one operation against the in-memory store. -/
def applyTOp (d : MemState) : TOp → MemState × Obs
  | (sid, .get k, now) =>
    ((memRead now d sid k).1, .val (memRead now d sid k).2)
  | (sid, .set k v ttl, now) => (memSet now d sid k v ttl, .done)
  | (sid, .del k, _) => (memDelete d sid k, .done)
  | (sid, .keys, now) =>
    ((memKeys now d sid).1, .keyList (memKeys now d sid).2)

/-- Run a trace, collecting each operation's observation tagged with its
session id. -/
def runTrace (d : MemState) : List TOp → MemState × List (String × Obs)
  | [] => (d, [])
  | t :: ts =>
    let st := applyTOp d t
    let rest := runTrace st.1 ts
    (rest.1, (t.1, st.2) :: rest.2)

/-- The slice of the store belonging to one session id. -/
def proj (d : MemState) (T : String) : MemState :=
  d.filter (fun p => p.1.1 == T)

/-- The observations a given session's reads see in a tagged trace. -/
def obsUnder (Bq : String) (l : List (String × Obs)) : List Obs :=
  (l.filter (fun x => x.1 == Bq)).map (fun x => x.2)

/-! ### Redis store (stores/redis_store.py)

The Redis keyspace is flat: `copy_session` addresses entries through the
string `"mcp:session:" + sid + ":" + key` and scans the source's keys with
the pattern `prefix*`.  Keys are modelled as character lists, the scan as
the snapshot of live keys carrying the literal prefix, and Redis native
per-key expiry as an absolute-expiry field consulted at `now`. -/
/-- Python strings of the Redis keyspace, as character lists. -/
abbrev Str := List Char

/-- A Redis value: a string, or a list (nonempty in any reachable state). -/
inductive RVal where
  | str (s : Str)
  | list (elems : List Str)
deriving DecidableEq

/-- A Redis entry: value and absolute expiry (none = persist). -/
abbrev REntry := RVal × Option Nat

/-- The Redis keyspace at one instant. -/
abbrev RState := List (Str × REntry)

/-- Is the entry unexpired at `now`? -/
def rAlive (now : Nat) (e : REntry) : Bool :=
  match e.2 with
  | none => true
  | some t => decide (now < t)

/-- Live read of a key; an expired key reads as absent (Redis removes it). -/
def rLive (now : Nat) (st : RState) (k : Str) : Option RVal :=
  match lookupA st k with
  | none => none
  | some e => if rAlive now e then some e.1 else none

/-- `_PREFIX + ":"`: every key is `mcp:session:{sid}:{key}`. -/
def basePre : Str := "mcp:session:".data

/-- The namespace of one session id: `mcp:session:{sid}:`. -/
def nsPre (sid : Str) : Str := basePre ++ sid ++ [':']

/-- `RedisSessionStore._fqkey sid key`. -/
def fqkey (sid key : Str) : Str := nsPre sid ++ key

/-- One iteration of the `scan_iter` loop of `RedisSessionStore.copy_session`:
read the scanned key's type and value from the current keyspace and write
it forward under the destination namespace — `SET ... ex=ttl` for a string
(a plain `SET` without `ex` leaves the key persistent), and
`DELETE` + `RPUSH` + (`EXPIRE` when ttl is given) for a list; an absent
value or empty list is skipped and not counted. -/
def rCopyStep (now : Nat) (src dst : Str) (ttl : Option Nat)
    (acc : RState × Nat) (old : Str) : RState × Nat :=
  let nk := nsPre dst ++ old.drop (nsPre src).length
  match rLive now acc.1 old with
  | some (.str v) =>
    (setA acc.1 nk (.str v, ttl.map (fun t => now + t)), acc.2 + 1)
  | some (.list vs) =>
    if vs.isEmpty then acc
    else (setA (delA acc.1 nk) nk (.list vs, ttl.map (fun t => now + t)),
      acc.2 + 1)
  | none => acc

/-- `RedisSessionStore.copy_session`: scan the source namespace (modelled as
the snapshot of the keys live at the start that carry the literal prefix,
in keyspace order) and copy each scanned key forward. -/
def redisCopySession (now : Nat) (st : RState) (src dst : Str)
    (ttl : Option Nat) : RState × Nat :=
  let scanned := (st.filter (fun p =>
    (nsPre src).isPrefixOf p.1 && rAlive now p.2)).map (fun p => p.1)
  scanned.foldl (rCopyStep now src dst ttl) (st, 0)

/-- Session ids used by the C1 counterexample: `src = "A:x"` extends
`dst = "A"`, so the two namespaces alias. -/
def c1Src : Str := "A:x".data

def c1Dst : Str := "A".data

/-- Keyspace for the C1 counterexample: the source session `A:x` holds keys
`x:foo` (value `v2`) and `foo` (value `v1`); the destination session `A`
holds key `foo` (value `old`).  Note `fqkey "A" "x:foo" = fqkey "A:x"
"foo"`: the flat addresses alias. -/
def c1St : RState :=
  [(fqkey c1Src ("x:foo".data), (RVal.str ("v2".data), none)),
   (fqkey c1Src ("foo".data), (RVal.str ("v1".data), none)),
   (fqkey c1Dst ("foo".data), (RVal.str ("old".data), none))]

/-- Concrete dict state for the C1 witness. -/
def c1MemD : MemState :=
  [(("B", "x"), ("old", some 100)), (("A", "x"), ("v", some 50)),
   (("B", "y"), ("w", none))]

/-- Concrete Redis keyspace for the C1 witness: ordinary colon-free session
ids `S1` (source) and `S2` (destination). -/
def c1RSt : RState :=
  [(fqkey ("S1".data) ("k".data), (RVal.str ("sv".data), some 99)),
   (fqkey ("S2".data) ("k".data), (RVal.str ("dv".data), none)),
   (fqkey ("S2".data) ("only".data), (RVal.str ("keep".data), none))]

theorem lookupA_nil (a : K) : lookupA ([] : List (K × B)) a = none := rfl

theorem lookupA_cons (p : K × B) (l : List (K × B)) (a : K) :
    lookupA (p :: l) a = if p.1 == a then some p.2 else lookupA l a := by
  by_cases h : p.1 == a <;> simp [lookupA, List.find?_cons, h]

theorem lookupA_append (l l' : List (K × B)) (a : K) :
    lookupA (l ++ l') a =
      match lookupA l a with
      | some b => some b
      | none => lookupA l' a := by
  induction l with
  | nil => simp [lookupA_nil]
  | cons p t ih =>
    rw [List.cons_append, lookupA_cons, lookupA_cons]
    by_cases hp : p.1 == a
    · simp [hp]
    · simp only [hp, if_false]
      exact ih

theorem lookupA_mapUpd_self (l : List (K × B)) (a : K) (b : B) :
    lookupA (l.map (fun p => if p.1 == a then (a, b) else p)) a =
      if l.any (fun p => p.1 == a) then some b else none := by
  induction l with
  | nil => simp [lookupA_nil]
  | cons p t ih =>
    by_cases hp : (p.1 == a) = true
    · simp [lookupA_cons, hp]
    · rw [Bool.not_eq_true] at hp
      rw [List.map_cons, hp]
      simp [lookupA_cons, ih]
      rw [hp, Bool.false_or]
      simp

theorem lookupA_mapUpd_ne (l : List (K × B)) (a c : K) (b : B) (h : ¬ c = a) :
    lookupA (l.map (fun p => if p.1 == a then (a, b) else p)) c = lookupA l c := by
  induction l with
  | nil => rfl
  | cons p t ih =>
    by_cases hp : (p.1 == a) = true
    · have hpa : p.1 = a := eq_of_beq hp
      have hca : ¬ (a == c) = true := by
        simp only [beq_iff_eq]
        intro hh
        exact h hh.symm
      have hpc : ¬ (p.1 == c) = true := by
        rw [hpa]
        exact hca
      simp [lookupA_cons, hp, hca, hpc, ih]
    · by_cases hpc : (p.1 == c) = true
      · simp [lookupA_cons, hp, hpc]
      · simp [lookupA_cons, hp, hpc, ih]

theorem lookupA_setA_self (l : List (K × B)) (a : K) (b : B) :
    lookupA (setA l a b) a = some b := by
  rw [setA]
  by_cases h : (l.any (fun p => p.1 == a)) = true
  · rw [if_pos h, lookupA_mapUpd_self, if_pos h]
  · rw [if_neg h, lookupA_append]
    have hnone : lookupA l a = none := by
      unfold lookupA
      rw [Option.map_eq_none', List.find?_eq_none]
      intro p hp
      simp only [List.any_eq_true, not_exists, not_and] at h
      exact fun hb => (h p hp) hb
    rw [hnone]
    simp [lookupA_cons]

theorem lookupA_setA_ne (l : List (K × B)) (a c : K) (b : B) (h : ¬ c = a) :
    lookupA (setA l a b) c = lookupA l c := by
  rw [setA]
  by_cases hany : (l.any (fun p => p.1 == a)) = true
  · rw [if_pos hany]
    exact lookupA_mapUpd_ne l a c b h
  · rw [if_neg hany, lookupA_append]
    have hca : ¬ (a == c) = true := by
      simp only [beq_iff_eq]
      intro hh
      exact h hh.symm
    cases hl : lookupA l c with
    | some b' => simp
    | none => simp [lookupA_cons, lookupA_nil, hca]

theorem lookupA_delA_ne (l : List (K × B)) (a c : K) (h : ¬ c = a) :
    lookupA (delA l a) c = lookupA l c := by
  induction l with
  | nil => rfl
  | cons p t ih =>
    unfold delA
    rw [List.filter_cons]
    by_cases hp : p.1 == a
    · simp only [hp, Bool.not_true, if_false]
      rw [lookupA_cons]
      have hpc : ¬ (p.1 == c) = true := by
        simp only [beq_iff_eq] at hp ⊢
        rw [hp]
        intro hh
        exact h hh.symm
      simp only [hpc, if_false]
      exact ih
    · simp only [hp, Bool.not_false, if_true]
      rw [lookupA_cons, lookupA_cons]
      by_cases hpc : p.1 == c
      · simp [hpc]
      · simp only [hpc, if_false]
        exact ih

theorem lookupA_delA_self (l : List (K × B)) (a : K) :
    lookupA (delA l a) a = none := by
  unfold lookupA
  rw [Option.map_eq_none', List.find?_eq_none]
  intro p hp
  have := (List.mem_filter.mp hp).2
  simp only [Bool.not_eq_true'] at this
  simp [this]

/-- Looking up a key through a filter that keeps every entry of that key. -/
theorem lookupA_filter_of_imp (l : List (K × B)) (q : K × B → Bool) (a : K)
    (h : ∀ b : B, q (a, b) = true) :
    lookupA (l.filter q) a = lookupA l a := by
  induction l with
  | nil => rfl
  | cons p t ih =>
    rw [List.filter_cons]
    by_cases hq : q p
    · simp only [hq, if_true]
      rw [lookupA_cons, lookupA_cons]
      by_cases hpa : p.1 == a
      · simp [hpa]
      · simp only [hpa, if_false]
        exact ih
    · simp only [hq, if_false]
      have hpa : ¬ (p.1 == a) = true := by
        intro hh
        have : p = (a, p.2) := by
          have := eq_of_beq hh
          exact Prod.ext this rfl
        rw [this] at hq
        exact hq (h p.2)
      rw [lookupA_cons]
      simp only [hpa, if_false]
      exact ih

theorem lookupA_eq_none_iff (l : List (K × B)) (a : K) :
    lookupA l a = none ↔ ∀ p ∈ l, ¬ p.1 = a := by
  unfold lookupA
  rw [Option.map_eq_none', List.find?_eq_none]
  constructor
  · intro h p hp he
    exact h p hp (by simp [he])
  · intro h p hp hb
    exact h p hp (by simpa using hb)

/-- In a duplicate-free state the entry of a member is what lookup returns. -/
theorem lookupA_of_mem (l : List (K × B)) (p : K × B)
    (hnd : nodupKeys l) (hp : p ∈ l) : lookupA l p.1 = some p.2 := by
  induction l with
  | nil => simp at hp
  | cons q t ih =>
    rcases List.mem_cons.mp hp with h | h
    · subst h
      simp [lookupA_cons]
    · have hq : ¬ (q.1 == p.1) = true := by
        simp only [beq_iff_eq]
        intro he
        have : q.1 ∈ t.map (fun r => r.1) := by
          rw [he]
          exact List.mem_map_of_mem _ h
        unfold nodupKeys at hnd
        rw [List.map_cons, List.nodup_cons] at hnd
        exact hnd.1 this
      rw [lookupA_cons]
      simp only [hq, if_false]
      have hnd' : nodupKeys t := by
        unfold nodupKeys at hnd ⊢
        rw [List.map_cons, List.nodup_cons] at hnd
        exact hnd.2
      exact ih hnd' h

/-- C2: after `set(sid, key, value, ttl=T)` at time `t0`, a `get` strictly
before `t0 + T` returns the value, a `get` at or after `t0 + T` returns
absent (not a stale value), and a `set` without ttl is readable at any
later time. -/
theorem C2_ttl_expiry (sid key value : String) (d : MemState) (t0 : Nat) :
    (∀ T t1, t1 < t0 + T →
      (memRead t1 (memSet t0 d sid key value (some T)) sid key).2 = some value) ∧
    (∀ T t1, t0 + T ≤ t1 →
      (memRead t1 (memSet t0 d sid key value (some T)) sid key).2 = none) ∧
    (∀ t1, (memRead t1 (memSet t0 d sid key value none) sid key).2 = some value) := by
  refine ⟨?_, ?_, ?_⟩
  · intro T t1 h
    unfold memRead memSet
    rw [lookupA_setA_self]
    simp [isAlive, h]
  · intro T t1 h
    unfold memRead memSet
    rw [lookupA_setA_self]
    simp only [Option.map_some]
    have : isAlive t1 (value, some (t0 + T)) = false := by
      simp [isAlive]
      omega
    simp [this]
  · intro t1
    unfold memRead memSet
    rw [lookupA_setA_self]
    simp [isAlive]

/-- C2 witness: concrete instantiation at ttl 5, reads at times 3, 7, 100. -/
theorem C2_ttl_expiry_witness :
    (memRead 3 (memSet 0 [] "s" "k" "v" (some 5)) "s" "k").2 = some "v" ∧
    (memRead 7 (memSet 0 [] "s" "k" "v" (some 5)) "s" "k").2 = none ∧
    (memRead 100 (memSet 0 [] "s" "k" "v" none) "s" "k").2 = some "v" :=
  ⟨(C2_ttl_expiry "s" "k" "v" [] 0).1 5 3 (by decide),
   (C2_ttl_expiry "s" "k" "v" [] 0).2.1 5 7 (by decide),
   (C2_ttl_expiry "s" "k" "v" [] 0).2.2 100⟩

/-- C3 counterexample: a malformed stored value makes `Session.get` raise
(the model returns `.error ()`), so callers can observe a deserialization
failure, contrary to the claim. -/
theorem C3_counterexample :
    (sessionGet 0 [(("A", "k"), ("not json", none))] "A" "k").2 =
      Except.error () := rfl

/-- C3 amended: `Session.get` returns `None` (absent) when the backend holds
no live value for the key, but when the stored raw string is malformed the
deserialization failure is raised to the caller rather than absorbed. -/
theorem C3_get_missing_or_malformed (now : Nat) (d : MemState)
    (sid key : String) :
    ((memRead now d sid key).2 = none →
      (sessionGet now d sid key).2 = Except.ok Json.null) ∧
    (∀ raw, (memRead now d sid key).2 = some raw → json_loads raw = none →
      (sessionGet now d sid key).2 = Except.error ()) := by
  constructor
  · intro h
    simp [sessionGet, h]
  · intro raw h hmal
    simp [sessionGet, h, hmal]

/-- C3 witness: the amended theorem applied at a missing key and at a
malformed stored value. -/
theorem C3_get_missing_or_malformed_witness :
    (sessionGet 0 [] "A" "k").2 = Except.ok Json.null ∧
    (sessionGet 0 [(("A", "k"), ("not json", none))] "A" "k").2 =
      Except.error () :=
  ⟨(C3_get_missing_or_malformed 0 [] "A" "k").1 rfl,
   (C3_get_missing_or_malformed 0 [(("A", "k"), ("not json", none))] "A" "k").2
     "not json" rfl rfl⟩

/-- C10: at the `Session` interface a stored JSON `null` is indistinguishable
from absence: reading back a key set to `None` (within its ttl) gives the
same `.ok .null` that reading any missing or expired key gives. -/
theorem C10_null_indistinguishable (now t1 : Nat) (d d' : MemState)
    (sid key : String) (ttl : Nat) (hlive : t1 < now + ttl)
    (hmiss : (memRead t1 d' sid key).2 = none) :
    (sessionGet t1 (sessionSet now d sid key Json.null ttl) sid key).2 =
      Except.ok Json.null ∧
    (sessionGet t1 d' sid key).2 = Except.ok Json.null := by
  constructor
  · have hr :
        (memRead t1 (sessionSet now d sid key Json.null ttl) sid key).2 =
          some "null" := by
      unfold sessionSet
      exact (C2_ttl_expiry sid key "null" d now).1 ttl t1 hlive
    simp [sessionGet, hr]
    rfl
  · simp [sessionGet, hmiss]

/-- C10 witness: set `null` at time 0, read at time 1; compare with a read
of an empty store. -/
theorem C10_null_indistinguishable_witness :
    (sessionGet 1 (sessionSet 0 [] "A" "k" Json.null 5) "A" "k").2 =
      Except.ok Json.null ∧
    (sessionGet 1 [] "A" "k").2 = Except.ok Json.null :=
  C10_null_indistinguishable 0 1 [] [] "A" "k" 5 (by decide) rfl

/-- C6 counterexample: with `old_session_id` equal to the current session id
the tool reports the `same_session` status but the returned dict has NO
`keys_copied` field, so the promised shape
`(status, keys_copied : integer)` does not hold for that branch. -/
theorem C6_counterexample :
    lookupA (resumeSessionTool 0 [] "inst" "S" "S").2 "status" =
      some (Json.str "same_session") ∧
    lookupA (resumeSessionTool 0 [] "inst" "S" "S").2 "keys_copied" = none :=
  ⟨rfl, rfl⟩

/-- C6 amended: the result always carries a status of `resumed` or
`same_session`; when `old_session_id` equals the current session id the
tool performs no copy (the store is unchanged) and returns the
`same_session` status WITHOUT a `keys_copied` field; otherwise the status
is `resumed` and `keys_copied` is present and is the integer count
returned by `copy_session`. -/
theorem C6_resume_tool_result (now : Nat) (d : MemState)
    (instanceId newSid oldSid : String) :
    (oldSid = newSid →
      resumeSessionTool now d instanceId newSid oldSid =
        (d, [("status", .str "same_session"), ("instance", .str instanceId)]) ∧
      lookupA (resumeSessionTool now d instanceId newSid oldSid).2 "status" =
        some (.str "same_session") ∧
      lookupA (resumeSessionTool now d instanceId newSid oldSid).2 "keys_copied" =
        none) ∧
    (¬ oldSid = newSid →
      lookupA (resumeSessionTool now d instanceId newSid oldSid).2 "status" =
        some (.str "resumed") ∧
      lookupA (resumeSessionTool now d instanceId newSid oldSid).2 "keys_copied" =
        some (.num (Int.ofNat
          (memCopySession now d oldSid newSid (some SESSION_TTL)).2))) := by
  constructor
  · intro h
    have e : resumeSessionTool now d instanceId newSid oldSid =
        (d, [("status", .str "same_session"), ("instance", .str instanceId)]) := by
      simp [resumeSessionTool, h]
    refine ⟨e, ?_, ?_⟩ <;> rw [e] <;> rfl
  · intro h
    have e : resumeSessionTool now d instanceId newSid oldSid =
        ((memCopySession now d oldSid newSid (some SESSION_TTL)).1,
         [("status", .str "resumed"),
          ("keys_copied", .num (Int.ofNat
            (memCopySession now d oldSid newSid (some SESSION_TTL)).2)),
          ("instance", .str instanceId)]) := by
      simp [resumeSessionTool, h]
    refine ⟨?_, ?_⟩ <;> rw [e] <;> rfl

/-- C6 witness: the amended theorem applied at equal and at distinct
session ids. -/
theorem C6_resume_tool_result_witness :
    lookupA (resumeSessionTool 0 [] "i" "S" "S").2 "keys_copied" = none ∧
    lookupA (resumeSessionTool 0 [] "i" "S2" "S1").2 "status" =
      some (Json.str "resumed") :=
  ⟨((C6_resume_tool_result 0 [] "i" "S" "S").1 rfl).2.2,
   ((C6_resume_tool_result 0 [] "i" "S2" "S1").2 (by decide)).1⟩

@[simp] theorem isCall_call (n : Nat) : isCall (Ev.call n) = true := rfl

@[simp] theorem isCall_sleep (n : Nat) : isCall (Ev.sleep n) = false := rfl

@[simp] theorem isCall_teardown : isCall Ev.teardown = false := rfl

@[simp] theorem isCall_connect (b : Bool) : isCall (Ev.connect b) = false := rfl

@[simp] theorem isCall_resume (s : String) : isCall (Ev.resume s) = false := rfl

/-- When the connect handshake succeeds, a reconnect cycle completes with the
new session id — regardless of the teardown and resume outcomes — and
performs no attempt of the intercepted call. -/
theorem reconnectAndResume_conn_ok (env : WEnv) (i : Nat) (sid : Option String)
    (newSid : String) (h : env.conn i = .ok newSid) :
    (reconnectAndResume env i sid).1 = .ok (some newSid) ∧
    countCalls (reconnectAndResume env i sid).2 = 0 := by
  cases sid with
  | none => simp [reconnectAndResume, h, countCalls]
  | some old =>
    cases hres : env.resume i with
    | ok n => simp [reconnectAndResume, h, hres, countCalls]
    | error e => simp [reconnectAndResume, h, hres, countCalls]

/-- C7 counterexample: in a run where attempt 0 fails and attempt 1 succeeds,
the trace is `call 0, sleep 1, teardown, connect, resume, call 1`: the
backoff sleep comes FIRST in the reconnect cycle, before teardown,
reconnect and resume — not after the resume step as the claim orders it. -/
theorem C7_counterexample :
    (runWrapper c7Env 2 (some "s0")).2 =
      [Ev.call 0, Ev.sleep 1, Ev.teardown, Ev.connect true,
       Ev.resume "s0", Ev.call 1] ∧
    List.indexOf (Ev.sleep 1) ((runWrapper c7Env 2 (some "s0")).2) <
      List.indexOf Ev.teardown ((runWrapper c7Env 2 (some "s0")).2) := by
  decide

/-- C7 amended: for every failed attempt with budget left, the wrapper first
waits the linearly increasing backoff delay (`attempt + 1`), and only then
records the old session id, performs best-effort teardown, re-runs the
connect handshake, invokes the remote resume with the old session id when
present, and reissues the retried call. -/
theorem C7_reconnect_order (env : WEnv) (attempt r : Nat) (old newSid : String)
    (e : String) (hfail : env.call attempt = .error e) (hr : r ≠ 0)
    (hconn : env.conn attempt = .ok newSid) :
    (wrapperGo env attempt (r + 1) (some old)).2 =
      Ev.call attempt :: Ev.sleep (attempt + 1) ::
        Ev.teardown :: Ev.connect true :: Ev.resume old ::
        (wrapperGo env (attempt + 1) r (some newSid)).2 ∧
    (wrapperGo env attempt (r + 1) (some old)).1 =
      (wrapperGo env (attempt + 1) r (some newSid)).1 := by
  cases hres : env.resume attempt with
  | ok n => simp [wrapperGo, hfail, hr, reconnectAndResume, hconn, hres]
  | error er => simp [wrapperGo, hfail, hr, reconnectAndResume, hconn, hres]

/-- C7 witness: the amended order at the concrete run. -/
theorem C7_reconnect_order_witness :
    (wrapperGo c7Env 0 2 (some "s0")).2 =
      Ev.call 0 :: Ev.sleep 1 :: Ev.teardown :: Ev.connect true ::
        Ev.resume "s0" :: (wrapperGo c7Env 1 1 (some "s1")).2 :=
  (C7_reconnect_order c7Env 0 1 "s0" "s1" "boom" rfl (by decide) rfl).1

/-- If every attempt of the intercepted call fails and every reconnect
handshake succeeds, the wrapper runs all remaining attempts and surfaces
the error of the last one. -/
theorem wrapperGo_fail_step_ok (env : WEnv) (attempt m : Nat)
    (sid : Option String) (e : String) (sid2 : Option String) (revs : List Ev)
    (hfail : env.call attempt = .error e) (hm : m ≠ 0)
    (hR : reconnectAndResume env attempt sid = (.ok sid2, revs)) :
    wrapperGo env attempt (m + 1) sid =
      ((wrapperGo env (attempt + 1) m sid2).1,
       Ev.call attempt :: Ev.sleep (attempt + 1) :: revs ++
         (wrapperGo env (attempt + 1) m sid2).2) := by
  simp [wrapperGo, hfail, hm, hR]

theorem wrapperGo_all_fail (env : WEnv) (errs : Nat → String)
    (hfail : ∀ i, env.call i = .error (errs i))
    (hconn : ∀ i, ∃ s, env.conn i = .ok s) :
    ∀ r attempt sid,
      (wrapperGo env attempt (r + 1) sid).1 = .error (errs (attempt + r)) ∧
      countCalls (wrapperGo env attempt (r + 1) sid).2 = r + 1 := by
  intro r
  induction r with
  | zero =>
    intro attempt sid
    simp [wrapperGo, hfail attempt, countCalls]
  | succ r ih =>
    intro attempt sid
    obtain ⟨s, hs⟩ := hconn attempt
    cases hR : reconnectAndResume env attempt sid with
    | mk res revs =>
      have hrec := reconnectAndResume_conn_ok env attempt sid s hs
      rw [hR] at hrec
      have hres : res = .ok (some s) := hrec.1
      subst hres
      have hstep := wrapperGo_fail_step_ok env attempt (r + 1) sid
        (errs attempt) (some s) revs (hfail attempt) (Nat.succ_ne_zero r) hR
      obtain ⟨hnext1, hnext2⟩ := ih (attempt + 1) (some s)
      rw [hstep]
      constructor
      · have harith : attempt + 1 + r = attempt + (r + 1) := by omega
        rw [← harith]
        exact hnext1
      · have hcnt : countCalls revs = 0 := hrec.2
        simp only [countCalls, List.countP_cons, List.countP_append,
          isCall_call, isCall_sleep,
          show (if false = true then (1 : Nat) else 0) = 0 from rfl,
          show (if true = true then (1 : Nat) else 0) = 1 from rfl,
          if_true, if_false] at hnext2 hcnt ⊢
        omega

/-- C8: exhausting the retry budget surfaces the last underlying error
unchanged, after exactly `max_retries` attempts of the call (when the
reconnect handshakes succeed); and with `max_retries = 1` any failing call
surfaces its own error after exactly one attempt, with no sleep or
reconnect at all. -/
theorem C8_retry_exhaustion (env : WEnv) (errs : Nat → String)
    (sid : Option String) (maxRetries : Nat) (h1 : 1 ≤ maxRetries)
    (hfail : ∀ i, env.call i = .error (errs i))
    (hconn : ∀ i, ∃ s, env.conn i = .ok s) :
    ((runWrapper env maxRetries sid).1 = .error (errs (maxRetries - 1)) ∧
      countCalls (runWrapper env maxRetries sid).2 = maxRetries) ∧
    (∀ env2 : WEnv, ∀ sid2 e, env2.call 0 = .error e →
      runWrapper env2 1 sid2 = (.error e, [Ev.call 0])) := by
  constructor
  · obtain ⟨r, hr⟩ : ∃ r, maxRetries = r + 1 :=
      ⟨maxRetries - 1, by omega⟩
    subst hr
    have h := wrapperGo_all_fail env errs hfail hconn r 0 sid
    unfold runWrapper
    simpa using h
  · intro env2 sid2 e he
    simp [runWrapper, wrapperGo, he]

/-- C8 witness: an always-failing call with budget 2 surfaces the second
attempt's error after two attempts; with budget 1 the single error
surfaces with a one-event trace. -/
theorem C8_retry_exhaustion_witness :
    ((runWrapper c8Env 2 (some "s0")).1 = .error "e1" ∧
      countCalls (runWrapper c8Env 2 (some "s0")).2 = 2) ∧
    runWrapper c8Env 1 (some "s0") = (.error "e0", [Ev.call 0]) :=
  ⟨(C8_retry_exhaustion c8Env (fun i => "e" ++ toString i) (some "s0") 2
      (by decide) (fun i => rfl) (fun i => ⟨"s1", rfl⟩)).1,
   (C8_retry_exhaustion c8Env (fun i => "e" ++ toString i) (some "s0") 2
      (by decide) (fun i => rfl) (fun i => ⟨"s1", rfl⟩)).2 c8Env (some "s0")
      "e0" rfl⟩

/-- The outcome of a reconnect cycle does not depend on the teardown outcome
or on the outcome of the internally issued resume call. -/
theorem reconnectAndResume_result_env_indep (env : WEnv) (t : Nat → Bool)
    (rs : Nat → Except String Nat) (i : Nat) (sid : Option String) :
    (reconnectAndResume { env with teardownFails := t, resume := rs } i sid).1 =
      (reconnectAndResume env i sid).1 := by
  cases hc : env.conn i with
  | error ce =>
    have hc' : WEnv.conn { env with teardownFails := t, resume := rs } i =
        .error ce := hc
    simp [reconnectAndResume, hc, hc']
  | ok ns =>
    have hc' : WEnv.conn { env with teardownFails := t, resume := rs } i =
        .ok ns := hc
    cases sid with
    | none => simp [reconnectAndResume, hc, hc']
    | some old =>
      cases hr1 : rs i <;> cases hr2 : env.resume i <;>
        simp [reconnectAndResume, hc, hc', hr1, hr2]

/-- The final outcome of an intercepted call does not depend on the teardown
and resume outcomes of any reconnect cycle. -/
theorem wrapperGo_result_env_indep (env : WEnv) (t : Nat → Bool)
    (rs : Nat → Except String Nat) :
    ∀ r attempt sid,
      (wrapperGo { env with teardownFails := t, resume := rs } attempt r sid).1 =
        (wrapperGo env attempt r sid).1 := by
  intro r
  induction r with
  | zero =>
    intro attempt sid
    rfl
  | succ r ih =>
    intro attempt sid
    cases hcall : env.call attempt with
    | ok v =>
      have hcall' : WEnv.call { env with teardownFails := t, resume := rs }
          attempt = .ok v := hcall
      simp [wrapperGo, hcall, hcall']
    | error e =>
      have hcall' : WEnv.call { env with teardownFails := t, resume := rs }
          attempt = .error e := hcall
      by_cases hr : r = 0
      · subst hr
        simp [wrapperGo, hcall, hcall']
      · cases hR : reconnectAndResume env attempt sid with
        | mk res revs =>
          cases hR2 : reconnectAndResume
              { env with teardownFails := t, resume := rs } attempt sid with
          | mk res2 revs2 =>
            have hres : res2 = res := by
              have h := reconnectAndResume_result_env_indep env t rs attempt sid
              rw [hR, hR2] at h
              exact h
            subst hres
            cases res2 with
            | error ce => simp [wrapperGo, hcall, hcall', hr, hR, hR2]
            | ok sid2 =>
              simp [wrapperGo, hcall, hcall', hr, hR, hR2,
                ih (attempt + 1) sid2]

/-- C9: an error during teardown of the old connection and an error from the
internally issued remote resume call are both absorbed: a reconnect cycle
completes (with the new session id) whenever connect succeeds, and neither
outcome ever influences the result the caller sees from the intercepted
operation. -/
theorem C9_teardown_resume_absorbed (env : WEnv) (t : Nat → Bool)
    (rs : Nat → Except String Nat) :
    (∀ i sid newSid, env.conn i = .ok newSid →
      (reconnectAndResume env i sid).1 = .ok (some newSid)) ∧
    (∀ i sid,
      (reconnectAndResume { env with teardownFails := t, resume := rs } i sid).1 =
        (reconnectAndResume env i sid).1) ∧
    (∀ maxRetries sid,
      (runWrapper { env with teardownFails := t, resume := rs } maxRetries sid).1 =
        (runWrapper env maxRetries sid).1) := by
  refine ⟨?_, ?_, ?_⟩
  · intro i sid newSid h
    exact (reconnectAndResume_conn_ok env i sid newSid h).1
  · intro i sid
    exact reconnectAndResume_result_env_indep env t rs i sid
  · intro maxRetries sid
    exact wrapperGo_result_env_indep env t rs maxRetries 0 sid

/-- C9 witness: with a failing teardown and a failing resume substituted in,
the intercepted call's outcome is unchanged, and a reconnect cycle still
completes. -/
theorem C9_teardown_resume_absorbed_witness :
    (reconnectAndResume c7Env 0 (some "s0")).1 = .ok (some "s1") ∧
    (runWrapper { c7Env with teardownFails := (fun _ => true), resume := (fun _ => .error "rboom") } 2 (some "s0")).1 =
      (runWrapper c7Env 2 (some "s0")).1 :=
  ⟨(C9_teardown_resume_absorbed c7Env (fun _ => true)
      (fun _ => .error "rboom")).1 0 (some "s0") "s1" rfl,
   (C9_teardown_resume_absorbed c7Env (fun _ => true)
      (fun _ => .error "rboom")).2.2 2 (some "s0")⟩

/-- A successful lookup names an entry of the state. -/
theorem mem_of_lookupA (l : List (K × B)) (a : K) (b : B)
    (h : lookupA l a = some b) : (a, b) ∈ l := by
  unfold lookupA at h
  cases hf : l.find? (fun p => p.1 == a) with
  | none =>
    rw [hf] at h
    exact absurd h (by simp)
  | some p =>
    rw [hf] at h
    have hb : p.2 = b := by simpa using h
    have hm := List.mem_of_find?_eq_some hf
    have hk : p.1 = a := by
      have := List.find?_some hf
      simpa using this
    have hpe : (a, b) = p := by
      rw [← hk, ← hb]
    rw [hpe]
    exact hm

/-- Restricting a filter by a weaker filter first changes nothing. -/
theorem filter_filter_of_imp {α : Type} (l : List α) (pred q : α → Bool)
    (h : ∀ x, pred x = true → q x = true) :
    (l.filter q).filter pred = l.filter pred := by
  induction l with
  | nil => rfl
  | cons x t ih =>
    by_cases hx : pred x = true
    · have hq := h x hx
      simp [List.filter_cons, hq, hx, ih]
    · rw [Bool.not_eq_true] at hx
      by_cases hq : q x = true
      · simp [List.filter_cons, hq, hx, ih]
      · rw [Bool.not_eq_true] at hq
        simp [List.filter_cons, hq, hx, ih]

/-- If `keys(A)` is empty, no physically present entry of session `A` is
alive. -/
theorem memKeys_nil_no_live (now : Nat) (d : MemState) (A : String)
    (hempty : (memKeys now d A).2 = []) :
    ∀ p ∈ d, p.1.1 = A → isAlive now p.2 = false := by
  intro p hp hA
  by_contra hal
  rw [Bool.not_eq_false] at hal
  have hmem : p.1.2 ∈ (memKeys now d A).2 := by
    unfold memKeys
    simp only
    refine List.mem_map_of_mem _ ?_
    rw [List.mem_filter]
    refine ⟨hp, ?_⟩
    simp [hA, hal]
  rw [hempty] at hmem
  exact absurd hmem (List.not_mem_nil _)

/-- C5: `copy_session(A, B, ttl)` with zero live keys under `A` returns 0 and
leaves the destination untouched: for `B ≠ A` every physically present
entry of `B` is unchanged, and for every `B` (including `B = A`) the
observable views — `get` results and the `keys` enumeration — are
unchanged.  (The call is total in the model: it cannot raise.) -/
theorem C5_empty_source_copy (now : Nat) (d : MemState) (A B : String)
    (ttl : Option Nat) (hempty : (memKeys now d A).2 = []) :
    (memCopySession now d A B ttl).2 = 0 ∧
    (¬ B = A → ∀ k,
      lookupA (memCopySession now d A B ttl).1 (B, k) = lookupA d (B, k)) ∧
    (∀ k, (memRead now (memCopySession now d A B ttl).1 B k).2 =
      (memRead now d B k).2) ∧
    (memKeys now (memCopySession now d A B ttl).1 B).2 =
      (memKeys now d B).2 := by
  have he : memCopySession now d A B ttl = ((memKeys now d A).1, 0) := by
    simp [memCopySession, hempty]
  have hnolive := memKeys_nil_no_live now d A hempty
  have hframe : ∀ k, ¬ B = A →
      lookupA (memKeys now d A).1 (B, k) = lookupA d (B, k) := by
    intro k hBA
    unfold memKeys
    simp only
    refine lookupA_filter_of_imp d _ (B, k) ?_
    intro e
    have : (B == A) = false := by
      simp only [beq_eq_false_iff_ne, ne_eq]
      exact hBA
    simp [this]
  refine ⟨by rw [he], fun hBA k => by rw [he]; exact hframe k hBA, ?_, ?_⟩
  · intro k
    rw [he]
    by_cases hBA : B = A
    · subst hBA
      have hd : lookupA d (B, k) = none ∨
          ∃ e, lookupA d (B, k) = some e ∧ isAlive now e = false := by
        cases hl : lookupA d (B, k) with
        | none => exact Or.inl rfl
        | some e =>
          refine Or.inr ⟨e, rfl, ?_⟩
          exact hnolive ((B, k), e) (mem_of_lookupA d (B, k) e hl) rfl
      have hd1 : lookupA (memKeys now d B).1 (B, k) = none := by
        rw [lookupA_eq_none_iff]
        intro p hp hpk
        unfold memKeys at hp
        simp only at hp
        rw [List.mem_filter] at hp
        have hdead := hnolive p hp.1 (by rw [hpk])
        have := hp.2
        rw [hpk] at this
        simp [hdead] at this
      unfold memRead
      rw [hd1]
      rcases hd with hl | ⟨e, hl, hdead⟩
      · rw [hl]
      · rw [hl]
        simp [hdead]
    · have hlk := hframe k hBA
      unfold memRead
      rw [hlk]
      cases lookupA d (B, k) with
      | none => rfl
      | some e =>
        by_cases hal : isAlive now e = true
        · simp [hal]
        · rw [Bool.not_eq_true] at hal
          simp [hal]
  · rw [he]
    unfold memKeys
    simp only
    rw [filter_filter_of_imp]
    intro p hpred
    rw [Bool.and_eq_true] at hpred
    have hal : isAlive now p.2 = true := hpred.2
    simp [hal]

/-- C5 witness: the theorem applied at `c5D`. -/
theorem C5_empty_source_copy_witness :
    (memCopySession 5 c5D "A" "B" (some 9)).2 = 0 ∧
    lookupA (memCopySession 5 c5D "A" "B" (some 9)).1 ("B", "x") =
      lookupA c5D ("B", "x") ∧
    (memRead 5 (memCopySession 5 c5D "A" "B" (some 9)).1 "B" "x").2 =
      (memRead 5 c5D "B" "x").2 ∧
    (memKeys 5 (memCopySession 5 c5D "A" "B" (some 9)).1 "B").2 =
      (memKeys 5 c5D "B").2 :=
  ⟨(C5_empty_source_copy 5 c5D "A" "B" (some 9) (by decide)).1,
   (C5_empty_source_copy 5 c5D "A" "B" (some 9) (by decide)).2.1
     (by decide) "x",
   (C5_empty_source_copy 5 c5D "A" "B" (some 9) (by decide)).2.2.1 "x",
   (C5_empty_source_copy 5 c5D "A" "B" (some 9) (by decide)).2.2.2⟩

theorem proj_filter (d : MemState) (q : Addr × Entry → Bool) (T : String) :
    proj (d.filter q) T = (proj d T).filter q := by
  unfold proj
  rw [List.filter_filter, List.filter_filter]
  congr 1
  funext p
  rw [Bool.and_comm]

theorem filter_eq_self_of_imp {α : Type} (l : List α) (q : α → Bool)
    (h : ∀ x ∈ l, q x = true) : l.filter q = l :=
  List.filter_eq_self.mpr h

theorem mem_proj_sid (d : MemState) (T : String) (p : Addr × Entry)
    (hp : p ∈ proj d T) : p.1.1 = T := by
  unfold proj at hp
  have := (List.mem_filter.mp hp).2
  simpa using this

theorem any_filter_of_imp {α : Type} (l : List α) (pr q : α → Bool)
    (h : ∀ x, pr x = true → q x = true) :
    (l.filter q).any pr = l.any pr := by
  induction l with
  | nil => rfl
  | cons x t ih =>
    by_cases hx : pr x = true
    · have hq := h x hx
      simp [List.filter_cons, hq, hx, List.any_cons]
    · rw [Bool.not_eq_true] at hx
      by_cases hq : q x = true
      · simp [List.filter_cons, hq, hx, List.any_cons, ih]
      · rw [Bool.not_eq_true] at hq
        simp [List.filter_cons, hq, hx, List.any_cons, ih]

theorem filter_map_congr {α : Type} (l : List α) (f : α → α) (pr : α → Bool)
    (h : ∀ x, pr (f x) = pr x) :
    (l.map f).filter pr = (l.filter pr).map f := by
  induction l with
  | nil => rfl
  | cons x t ih =>
    by_cases hx : pr x = true
    · simp [List.filter_cons, h, hx, ih]
    · rw [Bool.not_eq_true] at hx
      simp [List.filter_cons, h, hx, ih]

/-- Projecting an upsert onto its own session commutes with projection. -/
theorem proj_setA_self (d : MemState) (a : Addr) (e : Entry) :
    proj (setA d a e) a.1 = setA (proj d a.1) a e := by
  have himp : ∀ p : Addr × Entry, (p.1 == a) = true → (p.1.1 == a.1) = true := by
    intro p hp
    have : p.1 = a := eq_of_beq hp
    simp [this]
  have hany : ((proj d a.1).any (fun p => p.1 == a)) = (d.any (fun p => p.1 == a)) := by
    unfold proj
    exact any_filter_of_imp d _ _ himp
  rw [setA, setA]
  by_cases h : (d.any (fun p => p.1 == a)) = true
  · rw [if_pos h, if_pos (by rw [hany]; exact h)]
    unfold proj
    refine filter_map_congr d _ _ ?_
    intro p
    by_cases hp : (p.1 == a) = true
    · have : p.1 = a := eq_of_beq hp
      simp [hp, this]
    · rw [Bool.not_eq_true] at hp
      simp [hp]
  · rw [if_neg h, if_neg (by rw [hany]; exact h)]
    unfold proj
    rw [List.filter_append]
    simp

/-- An upsert leaves every other session's slice untouched. -/
theorem proj_setA_ne (d : MemState) (a : Addr) (e : Entry) (T : String)
    (h : ¬ T = a.1) :
    proj (setA d a e) T = proj d T := by
  rw [setA]
  by_cases hany : (d.any (fun p => p.1 == a)) = true
  · rw [if_pos hany]
    unfold proj
    rw [filter_map_congr d _ _ ?hpr]
    case hpr =>
      intro p
      by_cases hp : (p.1 == a) = true
      · have hpa : p.1 = a := eq_of_beq hp
        simp [hp, hpa]
      · rw [Bool.not_eq_true] at hp
        simp [hp]
    refine List.map_congr_left ?_ |>.trans (List.map_id _)
    intro p hp
    have hpT : p.1.1 = T := by
      have := (List.mem_filter.mp hp).2
      simpa using this
    have : ¬ (p.1 == a) = true := by
      intro hc
      have : p.1 = a := eq_of_beq hc
      rw [this] at hpT
      exact h hpT.symm
    rw [Bool.not_eq_true] at this
    simp [this]
  · rw [if_neg hany]
    unfold proj
    rw [List.filter_append]
    have : ((a, e).1.1 == T) = false := by
      simp only [beq_eq_false_iff_ne, ne_eq]
      intro hc
      exact h hc.symm
    simp [this]

/-- A deletion projected onto any other session is the identity. -/
theorem proj_delA_ne (d : MemState) (a : Addr) (T : String) (h : ¬ T = a.1) :
    proj (delA d a) T = proj d T := by
  unfold delA
  rw [proj_filter]
  refine filter_eq_self_of_imp _ _ ?_
  intro p hp
  have hpT : p.1.1 = T := mem_proj_sid d T p hp
  have : (p.1 == a) = false := by
    simp only [beq_eq_false_iff_ne, ne_eq]
    intro hc
    rw [hc] at hpT
    exact h hpT.symm
  simp [this]

/-- A deletion projected onto its own session is the projected deletion. -/
theorem proj_delA_self (d : MemState) (a : Addr) :
    proj (delA d a) a.1 = delA (proj d a.1) a := by
  unfold delA
  rw [proj_filter]

/-- Every operation touches only its own session's slice of the store. -/
theorem applyTOp_proj_frame (d : MemState) (t : TOp) (T : String)
    (h : ¬ T = t.1) :
    proj (applyTOp d t).1 T = proj d T := by
  obtain ⟨sid, op, now⟩ := t
  simp only at h
  cases op with
  | get k =>
    simp only [applyTOp]
    unfold memRead
    cases lookupA d (sid, k) with
    | none => rfl
    | some e =>
      by_cases hal : isAlive now e = true
      · simp only [hal, if_true]
      · rw [Bool.not_eq_true] at hal
        simp only [hal, Bool.false_eq_true, if_false]
        exact proj_delA_ne d (sid, k) T h
  | set k v ttl =>
    simp only [applyTOp]
    unfold memSet
    exact proj_setA_ne d (sid, k) _ T h
  | del k =>
    simp only [applyTOp]
    unfold memDelete
    exact proj_delA_ne d (sid, k) T h
  | keys =>
    simp only [applyTOp]
    unfold memKeys
    simp only
    rw [proj_filter]
    refine filter_eq_self_of_imp _ _ ?_
    intro p hp
    have hpT := mem_proj_sid d T p hp
    have : (p.1.1 == sid) = false := by
      simp only [beq_eq_false_iff_ne, ne_eq, hpT]
      intro hc
      exact h hc
    simp [this]

/-- A lookup in a session is determined by that session's slice. -/
theorem lookupA_proj_eq (d1 d2 : MemState) (sid k : String)
    (h : proj d1 sid = proj d2 sid) :
    lookupA d1 (sid, k) = lookupA d2 (sid, k) := by
  have h1 : lookupA (proj d1 sid) (sid, k) = lookupA d1 (sid, k) := by
    unfold proj
    exact lookupA_filter_of_imp d1 _ (sid, k) (fun e => by simp)
  have h2 : lookupA (proj d2 sid) (sid, k) = lookupA d2 (sid, k) := by
    unfold proj
    exact lookupA_filter_of_imp d2 _ (sid, k) (fun e => by simp)
  rw [← h1, h, h2]

/-- `_read` is determined by — and only rewrites — its session's slice. -/
theorem memRead_proj_congr (now : Nat) (d1 d2 : MemState) (sid k : String)
    (h : proj d1 sid = proj d2 sid) :
    (memRead now d1 sid k).2 = (memRead now d2 sid k).2 ∧
    proj (memRead now d1 sid k).1 sid = proj (memRead now d2 sid k).1 sid := by
  have hl := lookupA_proj_eq d1 d2 sid k h
  unfold memRead
  rw [hl]
  cases lookupA d2 (sid, k) with
  | none => exact ⟨by trivial, h⟩
  | some e =>
    by_cases hal : isAlive now e = true
    · simp only [hal, if_true]
      exact ⟨by trivial, h⟩
    · rw [Bool.not_eq_true] at hal
      simp only [hal, Bool.false_eq_true, if_false]
      refine ⟨by trivial, ?_⟩
      have e1 := proj_delA_self d1 (sid, k)
      have e2 := proj_delA_self d2 (sid, k)
      simp only at e1 e2
      rw [e1, e2, h]

/-- `keys` is determined by — and only cleans up — its session's slice. -/
theorem memKeys_proj_congr (now : Nat) (d1 d2 : MemState) (sid : String)
    (h : proj d1 sid = proj d2 sid) :
    (memKeys now d1 sid).2 = (memKeys now d2 sid).2 ∧
    proj (memKeys now d1 sid).1 sid = proj (memKeys now d2 sid).1 sid := by
  constructor
  · unfold memKeys
    simp only
    have himp : ∀ p : Addr × Entry,
        (p.1.1 == sid && isAlive now p.2) = true → (p.1.1 == sid) = true := by
      intro p hp
      cases hb : (p.1.1 == sid) with
      | false =>
        rw [hb] at hp
        simp at hp
      | true => rfl
    have e1 := filter_filter_of_imp d1
      (fun p => p.1.1 == sid && isAlive now p.2) (fun p => p.1.1 == sid) himp
    have e2 := filter_filter_of_imp d2
      (fun p => p.1.1 == sid && isAlive now p.2) (fun p => p.1.1 == sid) himp
    rw [← e1, ← e2]
    unfold proj at h
    rw [h]
  · unfold memKeys
    simp only
    rw [proj_filter, proj_filter, h]

/-- One step congruence: an operation's observation, and its effect on its
own session's slice, are determined by that slice. -/
theorem applyTOp_congr (t : TOp) (d1 d2 : MemState)
    (h : proj d1 t.1 = proj d2 t.1) :
    (applyTOp d1 t).2 = (applyTOp d2 t).2 ∧
    proj (applyTOp d1 t).1 t.1 = proj (applyTOp d2 t).1 t.1 := by
  obtain ⟨sid, op, now⟩ := t
  simp only at h
  cases op with
  | get k =>
    have hc := memRead_proj_congr now d1 d2 sid k h
    simp only [applyTOp]
    exact ⟨by rw [hc.1], hc.2⟩
  | set k v ttl =>
    simp only [applyTOp]
    refine ⟨by trivial, ?_⟩
    unfold memSet
    have e1 := proj_setA_self d1 (sid, k) (v, ttl.map (fun x => now + x))
    have e2 := proj_setA_self d2 (sid, k) (v, ttl.map (fun x => now + x))
    simp only at e1 e2
    rw [e1, e2, h]
  | del k =>
    simp only [applyTOp]
    refine ⟨by trivial, ?_⟩
    unfold memDelete
    have e1 := proj_delA_self d1 (sid, k)
    have e2 := proj_delA_self d2 (sid, k)
    simp only at e1 e2
    rw [e1, e2, h]
  | keys =>
    have hc := memKeys_proj_congr now d1 d2 sid h
    simp only [applyTOp]
    exact ⟨by rw [hc.1], hc.2⟩

/-- Runs from states agreeing outside session `A` stay in agreement when the
operations under `A` are removed, and every read under `Bq ≠ A` observes
the same results. -/
theorem runTrace_isolation_aux (A Bq : String) (hAB : ¬ Bq = A) :
    ∀ (ts : List TOp) (d1 d2 : MemState),
      (∀ T, ¬ T = A → proj d1 T = proj d2 T) →
      obsUnder Bq (runTrace d1 ts).2 =
        obsUnder Bq (runTrace d2 (ts.filter (fun t => !(t.1 == A)))).2 := by
  intro ts
  induction ts with
  | nil =>
    intro d1 d2 h
    rfl
  | cons t ts ih =>
    intro d1 d2 h
    by_cases hA : t.1 = A
    · have hfilter : (t :: ts).filter (fun t => !(t.1 == A)) =
          ts.filter (fun t => !(t.1 == A)) := by
        simp [List.filter_cons, hA]
      rw [hfilter]
      have htag : ((t.1, (applyTOp d1 t).2).1 == Bq) = false := by
        simp only [beq_eq_false_iff_ne, ne_eq, hA]
        intro hc
        exact hAB hc.symm
      have hobs : obsUnder Bq (runTrace d1 (t :: ts)).2 =
          obsUnder Bq (runTrace (applyTOp d1 t).1 ts).2 := by
        simp only [runTrace]
        unfold obsUnder
        rw [List.filter_cons, htag]
        simp
      rw [hobs]
      refine ih (applyTOp d1 t).1 d2 ?_
      intro T hT
      rw [applyTOp_proj_frame d1 t T (by rw [hA]; exact hT)]
      exact h T hT
    · have hfilter : (t :: ts).filter (fun t => !(t.1 == A)) =
          t :: ts.filter (fun t => !(t.1 == A)) := by
        have : (t.1 == A) = false := by
          simp only [beq_eq_false_iff_ne, ne_eq]
          exact hA
        simp [List.filter_cons, this]
      rw [hfilter]
      have hcong := applyTOp_congr t d1 d2 (h t.1 hA)
      have hinv : ∀ T, ¬ T = A →
          proj (applyTOp d1 t).1 T = proj (applyTOp d2 t).1 T := by
        intro T hT
        by_cases hTt : T = t.1
        · subst hTt
          exact hcong.2
        · rw [applyTOp_proj_frame d1 t T hTt,
              applyTOp_proj_frame d2 t T hTt]
          exact h T hT
      have htail := ih (applyTOp d1 t).1 (applyTOp d2 t).1 hinv
      simp only [runTrace]
      unfold obsUnder at htail ⊢
      rw [List.filter_cons, List.filter_cons]
      simp only
      rw [hcong.1]
      by_cases hB : (t.1 == Bq) = true
      · simp only [hB, if_true, List.map_cons]
        rw [htail]
      · rw [Bool.not_eq_true] at hB
        simp only [hB, Bool.false_eq_true, if_false]
        exact htail

/-- C4: for distinct session ids `A ≠ Bq`, a run of get/set/delete/keys
operations (no `copy_session`) and the same run with every operation under
`A` removed produce identical observations for every read issued under
`Bq`: writes under one session are never observable under another. -/
theorem C4_isolation (A Bq : String) (hAB : ¬ Bq = A) (ts : List TOp)
    (d : MemState) :
    obsUnder Bq (runTrace d ts).2 =
      obsUnder Bq (runTrace d (ts.filter (fun t => !(t.1 == A)))).2 :=
  runTrace_isolation_aux A Bq hAB ts d d (fun _ _ => rfl)

/-- C4 witness: a concrete interleaving of writes/deletes under session `a`
with reads and writes under session `b`. -/
theorem C4_isolation_witness :
    obsUnder "b" (runTrace []
      [("a", SOp.set "k" "v" none, 0), ("b", SOp.set "k" "w" none, 1),
       ("b", SOp.get "k", 2), ("b", SOp.keys, 3),
       ("a", SOp.del "k", 4), ("b", SOp.get "k", 5)]).2 =
    obsUnder "b" (runTrace []
      ([("a", SOp.set "k" "v" none, 0), ("b", SOp.set "k" "w" none, 1),
        ("b", SOp.get "k", 2), ("b", SOp.keys, 3),
        ("a", SOp.del "k", 4), ("b", SOp.get "k", 5)].filter
        (fun t => !(t.1 == "a")))).2 :=
  C4_isolation "a" "b" (by decide)
    [("a", SOp.set "k" "v" none, 0), ("b", SOp.set "k" "w" none, 1),
     ("b", SOp.get "k", 2), ("b", SOp.keys, 3),
     ("a", SOp.del "k", 4), ("b", SOp.get "k", 5)] []

/-! ### C1: the copy is additive/overwriting on the destination -/
/-- Lookups away from the read key are untouched by `_read`'s lazy cleanup. -/
theorem memRead_state_lookup_ne (now : Nat) (d : MemState) (sid k : String)
    (a : Addr) (h : ¬ a = (sid, k)) :
    lookupA (memRead now d sid k).1 a = lookupA d a := by
  unfold memRead
  cases lookupA d (sid, k) with
  | none => rfl
  | some e =>
    by_cases hal : isAlive now e = true
    · simp [hal]
    · rw [Bool.not_eq_true] at hal
      simp only [hal, Bool.false_eq_true, if_false]
      exact lookupA_delA_ne d (sid, k) a h

/-- A filter that keeps the (unique) entry of a key preserves its lookup. -/
theorem lookupA_filter_of_nodup (l : List (K × B)) (q : K × B → Bool) (a : K)
    (e : B) (hnd : nodupKeys l) (h : lookupA l a = some e)
    (hq : q (a, e) = true) :
    lookupA (l.filter q) a = some e := by
  induction l with
  | nil => simp [lookupA_nil] at h
  | cons p t ih =>
    rw [lookupA_cons] at h
    rw [List.filter_cons]
    by_cases hp : (p.1 == a) = true
    · rw [if_pos hp] at h
      have hp1 : p.1 = a := eq_of_beq hp
      have hp2 : p.2 = e := by
        injection h
      have hpe : p = (a, e) := by
        rw [← hp1, ← hp2]
      rw [hpe, hq]
      simp only [if_true]
      rw [lookupA_cons]
      simp
    · rw [if_neg hp] at h
      have hnd' : nodupKeys t := by
        unfold nodupKeys at hnd ⊢
        rw [List.map_cons, List.nodup_cons] at hnd
        exact hnd.2
      by_cases hqp : q p = true
      · rw [if_pos hqp, lookupA_cons, if_neg hp]
        exact ih hnd' h
      · rw [if_neg hqp]
        exact ih hnd' h

/-- A key enumerated by `keys(src)` names a live entry of the state. -/
theorem memKeys_mem_live (now : Nat) (d : MemState) (src k : String)
    (hnd : nodupKeys d) (hk : k ∈ (memKeys now d src).2) :
    ∃ v e, lookupA d (src, k) = some (v, e) ∧ isAlive now (v, e) = true := by
  unfold memKeys at hk
  simp only at hk
  obtain ⟨p, hp, hpk⟩ := List.mem_map.mp hk
  rw [List.mem_filter] at hp
  have hpred := hp.2
  rw [Bool.and_eq_true_iff] at hpred
  have hsid : p.1.1 = src := by
    have := hpred.1
    simpa using this
  have hpa : p.1 = (src, k) := by
    have : p.1 = (p.1.1, p.1.2) := rfl
    rw [this, hsid, hpk]
  refine ⟨p.2.1, p.2.2, ?_, ?_⟩
  · have := lookupA_of_mem d p hnd hp.1
    rw [hpa] at this
    simpa using this
  · have : (p.2.1, p.2.2) = p.2 := rfl
    rw [this]
    exact hpred.2

/-- Conversely, every live entry of the session is enumerated by `keys`. -/
theorem memKeys_mem_of_live (now : Nat) (d : MemState) (src k : String)
    (v : String) (e : Option Nat) (hlk : lookupA d (src, k) = some (v, e))
    (hal : isAlive now (v, e) = true) : k ∈ (memKeys now d src).2 := by
  unfold memKeys
  simp only
  have hm := mem_of_lookupA d (src, k) (v, e) hlk
  refine List.mem_map.mpr ⟨((src, k), (v, e)), ?_, rfl⟩
  rw [List.mem_filter]
  exact ⟨hm, by simp [hal]⟩

/-- Keys of same-session entries with distinct addresses are distinct. -/
theorem sndKeys_nodup (l : List (Addr × Entry)) (src : String)
    (hnd : (l.map (fun p => p.1)).Nodup) (hall : ∀ p ∈ l, p.1.1 = src) :
    (l.map (fun p => p.1.2)).Nodup := by
  induction l with
  | nil => simp
  | cons p t ih =>
    rw [List.map_cons, List.nodup_cons] at hnd ⊢
    constructor
    · intro hmem
      obtain ⟨q, hq, hqe⟩ := List.mem_map.mp hmem
      have hq1 : q.1.1 = src := hall q (List.mem_cons_of_mem _ hq)
      have hp1 : p.1.1 = src := hall p (List.mem_cons_self _ _)
      have hqp : q.1 = p.1 := by
        have e1 : q.1 = (q.1.1, q.1.2) := rfl
        have e2 : p.1 = (p.1.1, p.1.2) := rfl
        rw [e1, e2, hq1, hp1, hqe]
      exact hnd.1 (hqp ▸ List.mem_map_of_mem _ hq)
    · exact ih hnd.2 (fun q hq => hall q (List.mem_cons_of_mem _ hq))

/-- `keys(src)` enumerates each key at most once on a dict state. -/
theorem memKeys_keys_nodup (now : Nat) (d : MemState) (src : String)
    (hnd : nodupKeys d) : (memKeys now d src).2.Nodup := by
  unfold memKeys
  simp only
  refine sndKeys_nodup _ src ?_ ?_
  · exact List.Nodup.sublist (List.Sublist.map _ (List.filter_sublist d)) hnd
  · intro p hp
    rw [List.mem_filter] at hp
    have := (Bool.and_eq_true_iff.mp hp.2).1
    simpa using this

/-- The copy loop never touches an address that is neither a destination nor
a source address of one of its keys. -/
theorem copyFold_frame (now : Nat) (src dst : String) (expires : Option Nat)
    (a : Addr) :
    ∀ (ks : List String) (acc : MemState × Nat),
      (∀ k ∈ ks, ¬ (dst, k) = a ∧ ¬ (src, k) = a) →
      lookupA (ks.foldl (copyStep now src dst expires) acc).1 a =
        lookupA acc.1 a := by
  intro ks
  induction ks with
  | nil =>
    intro acc _
    rfl
  | cons k t ih =>
    intro acc h
    rw [List.foldl_cons]
    rw [ih _ (fun x hx => h x (List.mem_cons_of_mem _ hx))]
    obtain ⟨hd, hs⟩ := h k (List.mem_cons_self _ _)
    unfold copyStep
    cases hr : (memRead now acc.1 src k).2 with
    | none =>
      simp only [hr]
      exact memRead_state_lookup_ne now acc.1 src k a (fun hc => hs hc.symm)
    | some v =>
      simp only [hr]
      rw [lookupA_setA_ne _ _ _ _ (fun hc => hd hc.symm)]
      exact memRead_state_lookup_ne now acc.1 src k a (fun hc => hs hc.symm)

/-- On a state whose enumerated keys are all live, the copy loop writes each
key's source value under the destination with the fresh expiry, and later
iterations do not disturb it (distinct sessions, distinct keys). -/
theorem copyFold_overwrite (now : Nat) (src dst : String)
    (expires : Option Nat) (hne : ¬ src = dst) :
    ∀ (ks : List String) (acc : MemState × Nat) (k0 v0 : String)
      (e0 : Option Nat),
      ks.Nodup → k0 ∈ ks →
      (∀ k ∈ ks, ∃ v e, lookupA acc.1 (src, k) = some (v, e) ∧
        isAlive now (v, e) = true) →
      lookupA acc.1 (src, k0) = some (v0, e0) →
      lookupA (ks.foldl (copyStep now src dst expires) acc).1 (dst, k0) =
        some (v0, expires) := by
  intro ks
  induction ks with
  | nil =>
    intro acc k0 v0 e0 _ hmem _ _
    exact absurd hmem (List.not_mem_nil _)
  | cons k t ih =>
    intro acc k0 v0 e0 hnd hmem halive hlk
    obtain ⟨vk, ek, hvk, halk⟩ := halive k (List.mem_cons_self _ _)
    have hread : memRead now acc.1 src k = (acc.1, some vk) := by
      unfold memRead
      rw [hvk]
      simp [halk]
    have hstep : copyStep now src dst expires acc k =
        (setA acc.1 (dst, k) (vk, expires), acc.2 + 1) := by
      simp [copyStep, hread]
    rw [List.foldl_cons, hstep]
    rw [List.nodup_cons] at hnd
    rcases List.mem_cons.mp hmem with he | ht
    · subst he
      have hv : vk = v0 := by
        rw [hvk] at hlk
        injection hlk with hpair
        injection hpair with h1 h2
      rw [copyFold_frame now src dst expires (dst, k0) t _ ?_]
      · rw [lookupA_setA_self, hv]
      · intro k' hk'
        constructor
        · intro hc
          injection hc with h1 h2
          rw [h2] at hk'
          exact hnd.1 hk'
        · intro hc
          injection hc with h1 h2
          exact hne h1
    · refine ih _ k0 v0 e0 hnd.2 ht ?_ ?_
      · intro k' hk'
        obtain ⟨v, e, hv, hal⟩ := halive k' (List.mem_cons_of_mem _ hk')
        refine ⟨v, e, ?_, hal⟩
        rw [lookupA_setA_ne _ _ _ _ (fun hc => by
          injection hc with h1 h2
          exact hne h1)]
        exact hv
      · rw [lookupA_setA_ne _ _ _ _ (fun hc => by
          injection hc with h1 h2
          exact hne h1)]
        exact hlk

/-- Memory store, frame half of C1: an entry present under the destination
whose key is not live under the source is unchanged by the copy. -/
theorem memCopySession_frame (now : Nat) (d : MemState) (src dst : String)
    (ttl : Option Nat) (hnd : nodupKeys d) (hne : ¬ src = dst)
    (k : String) (e : Entry) (hdst : lookupA d (dst, k) = some e)
    (hnolive : (memRead now d src k).2 = none) :
    lookupA (memCopySession now d src dst ttl).1 (dst, k) = some e := by
  have hcopy : memCopySession now d src dst ttl =
      (memKeys now d src).2.foldl
        (copyStep now src dst (ttl.map (fun t => now + t)))
        ((memKeys now d src).1, 0) := rfl
  rw [hcopy]
  have hknotin : k ∉ (memKeys now d src).2 := by
    intro hk
    obtain ⟨v, e', hlk, hal⟩ := memKeys_mem_live now d src k hnd hk
    unfold memRead at hnolive
    rw [hlk] at hnolive
    simp [hal] at hnolive
  rw [copyFold_frame now src dst _ (dst, k) _ _ ?_]
  · unfold memKeys
    simp only
    rw [lookupA_filter_of_imp d _ (dst, k) ?_]
    · exact hdst
    · intro b
      have : (dst == src) = false := by
        simp only [beq_eq_false_iff_ne, ne_eq]
        intro hc
        exact hne hc.symm
      simp [this]
  · intro k' hk'
    constructor
    · intro hc
      injection hc with h1 h2
      rw [h2] at hk'
      exact hknotin hk'
    · intro hc
      injection hc with h1 h2
      exact hne h1

/-- Memory store, overwrite half of C1: every key live under the source ends
up under the destination with the source's value and the fresh expiry. -/
theorem memCopySession_overwrite (now : Nat) (d : MemState) (src dst : String)
    (ttl : Option Nat) (hnd : nodupKeys d) (hne : ¬ src = dst)
    (k v : String) (hlive : (memRead now d src k).2 = some v) :
    lookupA (memCopySession now d src dst ttl).1 (dst, k) =
      some (v, ttl.map (fun t => now + t)) := by
  have hx : ∃ e, lookupA d (src, k) = some (v, e) ∧
      isAlive now (v, e) = true := by
    cases hl : lookupA d (src, k) with
    | none =>
      have hr : (memRead now d src k).2 = none := by
        unfold memRead
        rw [hl]
      rw [hr] at hlive
      exact absurd hlive (by simp)
    | some p =>
      by_cases hal : isAlive now p = true
      · have hr : (memRead now d src k).2 = some p.1 := by
          unfold memRead
          rw [hl]
          simp [hal]
        rw [hr] at hlive
        have hv : p.1 = v := by
          injection hlive
        have hpe : p = (v, p.2) := by
          rw [← hv]
        refine ⟨p.2, ?_, ?_⟩
        · rw [← hpe]
        · rw [← hpe]
          exact hal
      · rw [Bool.not_eq_true] at hal
        have hr : (memRead now d src k).2 = none := by
          unfold memRead
          rw [hl]
          simp [hal]
        rw [hr] at hlive
        exact absurd hlive (by simp)
  obtain ⟨e, hlk, hal⟩ := hx
  have hq : ∀ (k' v' : String) (e' : Option Nat),
      lookupA d (src, k') = some (v', e') → isAlive now (v', e') = true →
      lookupA (memKeys now d src).1 (src, k') = some (v', e') := by
    intro k' v' e' hlk' hal'
    unfold memKeys
    simp only
    exact lookupA_filter_of_nodup d _ (src, k') (v', e') hnd hlk'
      (by simp [hal'])
  have hks_live : ∀ k' ∈ (memKeys now d src).2, ∃ v' e',
      lookupA (memKeys now d src).1 (src, k') = some (v', e') ∧
      isAlive now (v', e') = true := by
    intro k' hk'
    obtain ⟨v', e', hlk', hal'⟩ := memKeys_mem_live now d src k' hnd hk'
    exact ⟨v', e', hq k' v' e' hlk' hal', hal'⟩
  have hkin : k ∈ (memKeys now d src).2 :=
    memKeys_mem_of_live now d src k v e hlk hal
  have hnd_ks := memKeys_keys_nodup now d src hnd
  exact copyFold_overwrite now src dst _ hne (memKeys now d src).2
    ((memKeys now d src).1, 0) k v e hnd_ks hkin hks_live
    (hq k v e hlk hal)

/-- C1 counterexample (Redis backend): with aliasing session namespaces
(`src = "A:x"`, `dst = "A"`) the key `foo` is live under both sessions
before the copy, with source value `v1` — yet after `copy_session` the
destination holds `v2`, not the source's value: the write for scanned key
`x:foo` lands on the flat address `fqkey "A:x" "foo"` and clobbers the
source mid-scan. -/
theorem C1_counterexample :
    rLive 0 c1St (fqkey c1Src ("foo".data)) = some (RVal.str ("v1".data)) ∧
    rLive 0 c1St (fqkey c1Dst ("foo".data)) = some (RVal.str ("old".data)) ∧
    rLive 0 (redisCopySession 0 c1St c1Src c1Dst none).1
        (fqkey c1Dst ("foo".data)) = some (RVal.str ("v2".data)) ∧
    ¬ (RVal.str ("v2".data)) = (RVal.str ("v1".data)) :=
  ⟨rfl, rfl, rfl, by decide⟩

/-- Bridge between boolean and propositional list-prefix tests. -/
theorem isPrefixOf_eq_true_iff {A : Type} [BEq A] [LawfulBEq A]
    (l1 l2 : List A) : l1.isPrefixOf l2 = true ↔ l1 <+: l2 :=
  List.isPrefixOf_iff_prefix

/-- Concatenations with incomparable left parts are never equal. -/
theorem append_ne_of_sep {α : Type} (l1 l2 t1 t2 : List α)
    (h1 : ¬ l1 <+: l2) (h2 : ¬ l2 <+: l1) : ¬ l1 ++ t1 = l2 ++ t2 := by
  intro h
  rcases List.append_eq_append_iff.mp h with ⟨a, ha, _⟩ | ⟨c, hc, _⟩
  · exact h1 ⟨a, ha.symm⟩
  · exact h2 ⟨c, hc.symm⟩

/-- The Redis copy loop never touches an address outside the written
destination addresses of its scanned keys. -/
theorem rCopyFold_frame (now : Nat) (src dst : Str) (ttl : Option Nat)
    (a : Str) :
    ∀ (ks : List Str) (acc : RState × Nat),
      (∀ old ∈ ks, ¬ nsPre dst ++ old.drop (nsPre src).length = a) →
      lookupA (ks.foldl (rCopyStep now src dst ttl) acc).1 a =
        lookupA acc.1 a := by
  intro ks
  induction ks with
  | nil =>
    intro acc _
    rfl
  | cons old t ih =>
    intro acc h
    rw [List.foldl_cons, ih _ (fun x hx => h x (List.mem_cons_of_mem _ hx))]
    have hnk := h old (List.mem_cons_self _ _)
    unfold rCopyStep
    cases rLive now acc.1 old with
    | none => rfl
    | some v =>
      cases v with
      | str s =>
        simp only
        exact lookupA_setA_ne _ _ _ _ (fun hc => hnk hc.symm)
      | list vs =>
        by_cases he : vs.isEmpty = true
        · simp [he]
        · rw [Bool.not_eq_true] at he
          simp only [he, Bool.false_eq_true, if_false]
          rw [lookupA_setA_ne _ _ _ _ (fun hc => hnk hc.symm)]
          exact lookupA_delA_ne _ _ _ (fun hc => hnk hc.symm)

/-- With non-aliasing namespaces, the Redis copy loop writes each scanned
key's current source value under the destination with the fresh ttl, and
later iterations do not disturb it. -/
theorem rCopyFold_overwrite (now : Nat) (src dst : Str) (ttl : Option Nat)
    (hsep : ¬ nsPre src <+: nsPre dst ∧ ¬ nsPre dst <+: nsPre src) :
    ∀ (ks : List Str) (acc : RState × Nat) (k0 : Str) (v0 : RVal)
      (x0 : Option Nat),
      (∀ old ∈ ks, nsPre src <+: old) →
      (ks.map (fun old => old.drop (nsPre src).length)).Nodup →
      fqkey src k0 ∈ ks →
      (∀ old ∈ ks, ∃ e : REntry, lookupA acc.1 old = some e ∧
        rAlive now e = true ∧ (∀ l, e.1 = RVal.list l → ¬ l = [])) →
      lookupA acc.1 (fqkey src k0) = some (v0, x0) →
      (∀ l, v0 = RVal.list l → ¬ l = []) →
      lookupA (ks.foldl (rCopyStep now src dst ttl) acc).1 (fqkey dst k0) =
        some (v0, ttl.map (fun t => now + t)) := by
  intro ks
  induction ks with
  | nil =>
    intro acc k0 v0 x0 _ _ hmem _ _ _
    exact absurd hmem (List.not_mem_nil _)
  | cons old t ih =>
    intro acc k0 v0 x0 hpre hnd hmem halive hlk hv0
    obtain ⟨e, he, hale, hnel⟩ := halive old (List.mem_cons_self _ _)
    have hread : rLive now acc.1 old = some e.1 := by
      simp [rLive, he, hale]
    have holddec : nsPre src ++ old.drop (nsPre src).length = old :=
      List.prefix_iff_eq_append.mp (hpre old (List.mem_cons_self _ _))
    rw [List.map_cons, List.nodup_cons] at hnd
    rw [List.foldl_cons]
    rcases List.mem_cons.mp hmem with heq | ht
    · have hsfx : old.drop (nsPre src).length = k0 := by
        rw [← heq]
        unfold fqkey
        exact List.drop_left _ _
      have hev : e = (v0, x0) := by
        rw [heq, he] at hlk
        injection hlk
      have hnk : nsPre dst ++ old.drop (nsPre src).length = fqkey dst k0 := by
        rw [hsfx]
        rfl
      have hframe : ∀ o ∈ t,
          ¬ nsPre dst ++ o.drop (nsPre src).length = fqkey dst k0 := by
        intro o ho hc
        have hc2 : nsPre dst ++ o.drop (nsPre src).length =
            nsPre dst ++ k0 := hc
        have hks : o.drop (nsPre src).length = k0 :=
          List.append_cancel_left hc2
        have hmm : o.drop (nsPre src).length ∈
            t.map (fun x => x.drop (nsPre src).length) :=
          List.mem_map_of_mem _ ho
        rw [hks, ← hsfx] at hmm
        exact hnd.1 hmm
      rw [rCopyFold_frame now src dst ttl (fqkey dst k0) t _ hframe]
      have hread0 : rLive now acc.1 old = some v0 := by
        rw [hread, hev]
      cases v0 with
      | str sv =>
        have hstep : rCopyStep now src dst ttl acc old =
            (setA acc.1 (fqkey dst k0)
              (RVal.str sv, ttl.map (fun t => now + t)), acc.2 + 1) := by
          simp [rCopyStep, hread0, hnk]
        rw [hstep]
        exact lookupA_setA_self _ _ _
      | list vs =>
        have hvs : ¬ vs = [] := hv0 vs rfl
        have hempty : vs.isEmpty = false := by
          cases vs with
          | nil => exact absurd rfl hvs
          | cons a l => rfl
        have hstep : rCopyStep now src dst ttl acc old =
            (setA (delA acc.1 (fqkey dst k0)) (fqkey dst k0)
              (RVal.list vs, ttl.map (fun t => now + t)), acc.2 + 1) := by
          simp [rCopyStep, hread0, hnk, hempty]
        rw [hstep]
        exact lookupA_setA_self _ _ _
    · have hstep_ne : ∀ addr : Str,
          ¬ nsPre dst ++ old.drop (nsPre src).length = addr →
          lookupA (rCopyStep now src dst ttl acc old).1 addr =
            lookupA acc.1 addr := by
        intro addr hne2
        unfold rCopyStep
        cases rLive now acc.1 old with
        | none => rfl
        | some v =>
          cases v with
          | str sv =>
            simp only
            exact lookupA_setA_ne _ _ _ _ (fun hc => hne2 hc.symm)
          | list vs =>
            by_cases hemp : vs.isEmpty = true
            · simp [hemp]
            · rw [Bool.not_eq_true] at hemp
              simp only [hemp, Bool.false_eq_true, if_false]
              rw [lookupA_setA_ne _ _ _ _ (fun hc => hne2 hc.symm)]
              exact lookupA_delA_ne _ _ _ (fun hc => hne2 hc.symm)
      refine ih (rCopyStep now src dst ttl acc old) k0 v0 x0
        (fun o ho => hpre o (List.mem_cons_of_mem _ ho)) hnd.2 ht ?_ ?_ hv0
      · intro o ho
        obtain ⟨e2, he2, hal2, hn2⟩ := halive o (List.mem_cons_of_mem _ ho)
        refine ⟨e2, ?_, hal2, hn2⟩
        rw [hstep_ne o ?_]
        · exact he2
        · have hodec : nsPre src ++ o.drop (nsPre src).length = o :=
            List.prefix_iff_eq_append.mp (hpre o (List.mem_cons_of_mem _ ho))
          rw [← hodec]
          exact append_ne_of_sep _ _ _ _ hsep.2 hsep.1
      · rw [hstep_ne (fqkey src k0) ?_]
        · exact hlk
        · have hfd : fqkey src k0 = nsPre src ++ k0 := rfl
          rw [hfd]
          exact append_ne_of_sep _ _ _ _ hsep.2 hsep.1

/-- Redis store, frame half of C1: an entry under the destination namespace
whose key is not live under the source namespace is unchanged by the copy
(no namespace-separation hypothesis needed: every write of the loop lands
on `nsPre dst ++ suffix` for a live scanned suffix). -/
theorem redisCopySession_frame (now : Nat) (st : RState) (src dst k : Str)
    (ttl : Option Nat) (hnd : nodupKeys st)
    (hnolive : rLive now st (fqkey src k) = none) :
    lookupA (redisCopySession now st src dst ttl).1 (fqkey dst k) =
      lookupA st (fqkey dst k) := by
  have hcopy : redisCopySession now st src dst ttl =
      ((st.filter (fun p =>
        (nsPre src).isPrefixOf p.1 && rAlive now p.2)).map
        (fun p => p.1)).foldl (rCopyStep now src dst ttl) (st, 0) := rfl
  rw [hcopy]
  refine rCopyFold_frame now src dst ttl (fqkey dst k) _ (st, 0) ?_
  intro old hold hc
  obtain ⟨p, hp, hpk⟩ := List.mem_map.mp hold
  rw [List.mem_filter] at hp
  obtain ⟨hpre, halv⟩ := Bool.and_eq_true_iff.mp hp.2
  have hpfx : nsPre src <+: p.1 := (isPrefixOf_eq_true_iff _ _).mp hpre
  have hdec : nsPre src ++ p.1.drop (nsPre src).length = p.1 :=
    List.prefix_iff_eq_append.mp hpfx
  rw [← hpk] at hc
  have hfd : fqkey dst k = nsPre dst ++ k := rfl
  rw [hfd] at hc
  have hk2 : p.1.drop (nsPre src).length = k := List.append_cancel_left hc
  have hp1 : p.1 = fqkey src k := by
    rw [← hdec, hk2]
    rfl
  have hlp := lookupA_of_mem st p hnd hp.1
  rw [hp1] at hlp
  have : rLive now st (fqkey src k) = some p.2.1 := by
    simp [rLive, hlp, halv]
  rw [this] at hnolive
  exact absurd hnolive (by simp)

/-- Redis store, overwrite half of C1 (non-aliasing namespaces): every key
live under the source is written under the destination with the source's
value and the fresh ttl. -/
theorem redisCopySession_overwrite (now : Nat) (st : RState)
    (src dst k : Str) (ttl : Option Nat) (hnd : nodupKeys st)
    (hsep : ¬ nsPre src <+: nsPre dst ∧ ¬ nsPre dst <+: nsPre src)
    (v : RVal) (hlive : rLive now st (fqkey src k) = some v)
    (hwf : ∀ p ∈ st, ∀ l, p.2.1 = RVal.list l → ¬ l = []) :
    lookupA (redisCopySession now st src dst ttl).1 (fqkey dst k) =
      some (v, ttl.map (fun t => now + t)) := by
  have hx : ∃ x, lookupA st (fqkey src k) = some (v, x) ∧
      rAlive now (v, x) = true := by
    cases hl : lookupA st (fqkey src k) with
    | none =>
      have hz : rLive now st (fqkey src k) = none := by
        simp [rLive, hl]
      rw [hz] at hlive
      exact absurd hlive (by simp)
    | some e =>
      by_cases hal : rAlive now e = true
      · have hz : rLive now st (fqkey src k) = some e.1 := by
          simp [rLive, hl, hal]
        rw [hz] at hlive
        have hv : e.1 = v := by
          injection hlive
        have hpe : e = (v, e.2) := by
          rw [← hv]
        refine ⟨e.2, ?_, ?_⟩
        · rw [← hpe]
        · rw [← hpe]
          exact hal
      · have hz : rLive now st (fqkey src k) = none := by
          simp [rLive, hl, hal]
        rw [hz] at hlive
        exact absurd hlive (by simp)
  obtain ⟨x, hlk, halx⟩ := hx
  have hpmem : (fqkey src k, (v, x)) ∈ st := mem_of_lookupA st _ _ hlk
  have hcopy : redisCopySession now st src dst ttl =
      ((st.filter (fun p =>
        (nsPre src).isPrefixOf p.1 && rAlive now p.2)).map
        (fun p => p.1)).foldl (rCopyStep now src dst ttl) (st, 0) := rfl
  rw [hcopy]
  have hscanned_pre : ∀ old ∈ (st.filter (fun p =>
      (nsPre src).isPrefixOf p.1 && rAlive now p.2)).map (fun p => p.1),
      nsPre src <+: old := by
    intro old hold
    obtain ⟨p, hp, hpk⟩ := List.mem_map.mp hold
    rw [List.mem_filter] at hp
    rw [← hpk]
    exact (isPrefixOf_eq_true_iff _ _).mp (Bool.and_eq_true_iff.mp hp.2).1
  have hscanned_nodup : ((st.filter (fun p =>
      (nsPre src).isPrefixOf p.1 && rAlive now p.2)).map
      (fun p => p.1)).Nodup :=
    List.Nodup.sublist (List.Sublist.map _ (List.filter_sublist st)) hnd
  refine rCopyFold_overwrite now src dst ttl hsep _ (st, 0) k v x
    hscanned_pre ?_ ?_ ?_ hlk ?_
  · refine List.Nodup.map_on ?_ hscanned_nodup
    intro o1 h1 o2 h2 hdrop
    have d1 := List.prefix_iff_eq_append.mp (hscanned_pre o1 h1)
    have d2 := List.prefix_iff_eq_append.mp (hscanned_pre o2 h2)
    rw [← d1, ← d2, hdrop]
  · refine List.mem_map.mpr ⟨(fqkey src k, (v, x)), ?_, rfl⟩
    rw [List.mem_filter]
    refine ⟨hpmem, ?_⟩
    rw [Bool.and_eq_true_iff]
    constructor
    · exact (isPrefixOf_eq_true_iff _ _).mpr (List.prefix_append _ _)
    · exact halx
  · intro old hold
    obtain ⟨p, hp, hpk⟩ := List.mem_map.mp hold
    rw [List.mem_filter] at hp
    refine ⟨p.2, ?_, (Bool.and_eq_true_iff.mp hp.2).2, ?_⟩
    · rw [← hpk]
      exact lookupA_of_mem st p hnd hp.1
    · exact hwf p hp.1
  · intro l hvl
    exact hwf (fqkey src k, (v, x)) hpmem l hvl

/-- C1 amended: `copy_session(src, dst, ttl)` is additive/overwriting on the
destination for DISTINCT sessions, and for the Redis backend additionally
NON-ALIASING namespaces.  In-memory (dict states, `src ≠ dst`): an entry
present under `dst` whose key is not live under `src` is unchanged, and
every key live under `src` is written under `dst` with `src`'s value and
the fresh expiry `now + ttl`.  Redis (duplicate-free keyspace): the frame
half holds for arbitrary session ids; the overwrite half additionally
needs the two namespace prefixes to be incomparable (guaranteed by
distinct colon-free session ids) — `C1_counterexample` shows it fails
otherwise. -/
theorem C1_copy_additive_overwriting (now : Nat)
    (d : MemState) (src dst : String) (ttl : Option Nat)
    (st : RState) (rsrc rdst : Str) (rttl : Option Nat) :
    (nodupKeys d → ¬ src = dst →
      (∀ k e, lookupA d (dst, k) = some e → (memRead now d src k).2 = none →
        lookupA (memCopySession now d src dst ttl).1 (dst, k) = some e) ∧
      (∀ k v, (memRead now d src k).2 = some v →
        lookupA (memCopySession now d src dst ttl).1 (dst, k) =
          some (v, ttl.map (fun t => now + t)))) ∧
    (nodupKeys st →
      (∀ k, rLive now st (fqkey rsrc k) = none →
        lookupA (redisCopySession now st rsrc rdst rttl).1 (fqkey rdst k) =
          lookupA st (fqkey rdst k)) ∧
      (¬ nsPre rsrc <+: nsPre rdst → ¬ nsPre rdst <+: nsPre rsrc →
        (∀ p ∈ st, ∀ l, p.2.1 = RVal.list l → ¬ l = []) →
        ∀ k v, rLive now st (fqkey rsrc k) = some v →
          lookupA (redisCopySession now st rsrc rdst rttl).1 (fqkey rdst k) =
            some (v, rttl.map (fun t => now + t)))) := by
  constructor
  · intro hnd hne
    exact ⟨fun k e => memCopySession_frame now d src dst ttl hnd hne k e,
           fun k v => memCopySession_overwrite now d src dst ttl hnd hne k v⟩
  · intro hnd
    constructor
    · intro k h
      exact redisCopySession_frame now st rsrc rdst k rttl hnd h
    · intro h1 h2 hwf k v hl
      exact redisCopySession_overwrite now st rsrc rdst k rttl hnd
        ⟨h1, h2⟩ v hl hwf

/-- C1 witness: the amended theorem applied at `c1MemD` (memory, copy A→B at
time 0 with ttl 10) and at `c1RSt` (Redis, copy S1→S2 with ttl 7). -/
theorem C1_copy_additive_overwriting_witness :
    lookupA (memCopySession 0 c1MemD "A" "B" (some 10)).1 ("B", "y") =
      some ("w", none) ∧
    lookupA (memCopySession 0 c1MemD "A" "B" (some 10)).1 ("B", "x") =
      some ("v", some 10) ∧
    lookupA (redisCopySession 0 c1RSt ("S1".data) ("S2".data) (some 7)).1
        (fqkey ("S2".data) ("only".data)) =
      lookupA c1RSt (fqkey ("S2".data) ("only".data)) ∧
    lookupA (redisCopySession 0 c1RSt ("S1".data) ("S2".data) (some 7)).1
        (fqkey ("S2".data) ("k".data)) =
      some (RVal.str ("sv".data), some 7) :=
  ⟨((C1_copy_additive_overwriting 0 c1MemD "A" "B" (some 10)
      c1RSt ("S1".data) ("S2".data) (some 7)).1
      (by unfold nodupKeys; decide) (by decide)).1
      "y" ("w", none) rfl rfl,
   ((C1_copy_additive_overwriting 0 c1MemD "A" "B" (some 10)
      c1RSt ("S1".data) ("S2".data) (some 7)).1
      (by unfold nodupKeys; decide) (by decide)).2
      "x" "v" rfl,
   ((C1_copy_additive_overwriting 0 c1MemD "A" "B" (some 10)
      c1RSt ("S1".data) ("S2".data) (some 7)).2
      (by unfold nodupKeys; decide)).1
      ("only".data) rfl,
   ((C1_copy_additive_overwriting 0 c1MemD "A" "B" (some 10)
      c1RSt ("S1".data) ("S2".data) (some 7)).2
      (by unfold nodupKeys; decide)).2
      (by decide) (by decide)
      (by
        intro p hp l hl
        simp only [c1RSt] at hp
        rcases List.mem_cons.mp hp with h | hp
        · rw [h] at hl
          simp at hl
        rcases List.mem_cons.mp hp with h | hp
        · rw [h] at hl
          simp at hl
        rcases List.mem_cons.mp hp with h | hp
        · rw [h] at hl
          simp at hl
        · exact absurd hp (List.not_mem_nil _))
      ("k".data) (RVal.str ("sv".data)) rfl⟩
